import Mathlib

/-!
Verification development for the movfuscator repository: a control-flow
flattening transformer for 32-bit x86 AT&T assembly.  The definitions below
are a shallow embedding of the Python sources under `src/`:

* `Movf.Expression`           — src/src/textparser/expression.py
* `Movf.RegisterOperand` etc. — src/src/textparser/models.py
* `Movf.parseCfg` pipeline    — src/src/textparser/parser.py
* `Movf.MemoryManager`        — src/src/memorymanager/manager.py
* `Movf.parseData`            — src/src/dataparser/parser.py
* `Movf.getUsedRegisters` …   — src/src/blockpreprocessor/context.py
* `Movf.expandPush` …         — src/src/blockpreprocessor/expansion.py
* `Movf.preprocessCfg`        — src/src/blockpreprocessor/preprocessor.py
* `Movf.generateBlockContent` — src/src/linearizer/linearizer.py

Machine integers do not occur (Python integers are unbounded), so `Int`/`Nat`
are exact.  Fallible code is embedded in `Except PyErr`.  Python `dict`s whose
observable behaviour is order-insensitive (the expression term map, which is
sorted before rendering and compared on canonical form) are represented by
canonically sorted association lists.
-/

namespace Movf

/-- Kinds of Python-level failures raised by the embedded code. `fuel` is the
out-of-fuel marker of the fueled interpreters; it never occurs for the fuel
bounds actually used. -/
inductive PyErr where
  | valueError (msg : String)
  | typeError (msg : String)
  | attributeError (msg : String)
  | lookupError (msg : String)
  | syntaxError (msg : String)
  | fuel
deriving Repr, DecidableEq

/-- ASCII lower-casing of one character (code points 65-90 are `A`-`Z`),
modelling Python `str.lower` on the ASCII inputs handled by the pipeline. -/
def lowerChar (c : Char) : Char :=
  if 65 ≤ c.toNat ∧ c.toNat ≤ 90 then Char.ofNat (c.toNat + 32) else c

/-- Python `str.lower` (ASCII fragment). -/
def pyLower (s : String) : String := ⟨s.data.map lowerChar⟩

/-- Code-point comparison of characters, as Python compares strings. -/
def charLtB (a b : Char) : Bool := a.toNat < b.toNat

/-- Lexicographic code-point comparison on character lists (Python `<` on
`str`). -/
def charsLtB : List Char → List Char → Bool
  | [], [] => false
  | [], _ :: _ => true
  | _ :: _, [] => false
  | a :: as, b :: bs => charLtB a b || (a = b && charsLtB as bs)

/-- Python `<` on strings. -/
def strLtB (a b : String) : Bool := charsLtB a.data b.data

/-!  ## Expression — src/src/textparser/expression.py

`Expression.__init__` keeps an integer `_constant` and a map
`_terms : symbol → coefficient`; `_cleanup` removes zero coefficients after
every operation and `__str__` renders the terms sorted by symbol.  Equality of
expressions is structural on this canonical form, so the term dict is
represented by its sorted association list with nonzero coefficients. -/

/-- Linear symbolic expression `constant + Σ kᵢ·sᵢ` in canonical form. -/
structure Expression where
  constant : Int
  terms : List (String × Int)
deriving Repr, DecidableEq

/-- Canonicity of the association-list representation of the term dict:
strictly sorted symbols and (after `_cleanup`) no zero coefficient. -/
def TermsWF (ts : List (String × Int)) : Prop :=
  ts.Pairwise (fun p q => strLtB p.1 q.1 = true) ∧ ∀ p ∈ ts, p.2 ≠ 0

instance : DecidablePred TermsWF := fun ts => by
  unfold TermsWF; infer_instance

/-- Canonical well-formedness of an expression value. -/
def Expression.WF (e : Expression) : Prop := TermsWF e.terms

instance : DecidablePred Expression.WF := fun e => by
  unfold Expression.WF; infer_instance

/-- `Expression(int)` — pure constant. -/
def Expression.ofInt (n : Int) : Expression := ⟨n, []⟩

/-- `Expression(str)` — the term `1·s`. -/
def Expression.ofSym (s : String) : Expression := ⟨0, [(s, 1)]⟩

/-- Order-preserving update `result._terms[sym] += coeff` on the sorted
association list (inserting the key at its place when absent). -/
def addTermRaw : List (String × Int) → String → Int → List (String × Int)
  | [], s, k => [(s, k)]
  | (t, l) :: rest, s, k =>
    if strLtB s t then (s, k) :: (t, l) :: rest
    else if strLtB t s then (t, l) :: addTermRaw rest s k
    else (t, l + k) :: rest

/-- `Expression._cleanup`: drop terms whose coefficient became zero. -/
def cleanupTerms (ts : List (String × Int)) : List (String × Int) :=
  ts.filter fun p => p.2 ≠ 0

/-- The dict merge of `Expression.__add__` (fold the right operand's items
into the left one) followed by `_cleanup`. -/
def mergeTerms (a b : List (String × Int)) : List (String × Int) :=
  cleanupTerms (b.foldl (fun acc p => addTermRaw acc p.1 p.2) a)

/-- `Expression.__add__` with an `Expression` argument (followed by
`_cleanup`). -/
def Expression.add (a b : Expression) : Expression :=
  ⟨a.constant + b.constant, mergeTerms a.terms b.terms⟩

/-- `Expression.__add__` with an `int` argument. -/
def Expression.addInt (a : Expression) (n : Int) : Expression :=
  ⟨a.constant + n, a.terms⟩

/-- `Expression.__add__` with a `str` argument (adds `1·s`). -/
def Expression.addSym (a : Expression) (s : String) : Expression :=
  ⟨a.constant, mergeTerms a.terms [(s, 1)]⟩

/-- Negation of every coefficient of a term list. -/
def negTerms (ts : List (String × Int)) : List (String × Int) :=
  ts.map fun p => (p.1, -p.2)

/-- `Expression.__sub__` with an `Expression` argument. -/
def Expression.sub (a b : Expression) : Expression :=
  ⟨a.constant - b.constant, mergeTerms a.terms (negTerms b.terms)⟩

/-- `Expression.__sub__` with an `int` argument. -/
def Expression.subInt (a : Expression) (n : Int) : Expression :=
  ⟨a.constant - n, a.terms⟩

/-- `Expression.__mul__` — scaling by an integer, then `_cleanup`. -/
def Expression.mulInt (a : Expression) (n : Int) : Expression :=
  ⟨a.constant * n, (a.terms.map fun p => (p.1, p.2 * n)).filter fun p => p.2 ≠ 0⟩

/-- `Expression.is_scalar`. -/
def Expression.isScalar (e : Expression) : Bool := e.terms.isEmpty

/-- `Expression.symbols`. -/
def Expression.symbols (e : Expression) : List String := e.terms.map (·.1)

/-- Association-list lookup of a symbol's coefficient (`term in self._terms`). -/
def lookupTerm (s : String) : List (String × Int) → Option Int
  | [] => none
  | (t, k) :: ts => if t = s then some k else lookupTerm s ts

/-- `Expression.substitute_term` with an `Expression` replacement: pops the
coefficient `k` of `term`, adds `k·v.constant` to the constant and merges
`k`-scaled terms of `v`, then `_cleanup`. No-op when `term` is absent. -/
def Expression.substituteTerm (e : Expression) (term : String) (v : Expression) :
    Expression :=
  match lookupTerm term e.terms with
  | none => e
  | some k =>
    let rest := e.terms.filter fun p => p.1 ≠ term
    ⟨e.constant + v.constant * k,
      mergeTerms rest ((v.terms.map fun p => (p.1, p.2 * k)).filter fun p => p.2 ≠ 0)⟩

/-- `Expression.substitute_term` with an `int` replacement. -/
def Expression.substituteTermInt (e : Expression) (term : String) (n : Int) :
    Expression :=
  match lookupTerm term e.terms with
  | none => e
  | some k => ⟨e.constant + n * k, e.terms.filter fun p => p.1 ≠ term⟩

/-! ### Decimal rendering (Python `str` on `int`) -/

/-- Fueled most-significant-first decimal digit accumulation. -/
def natCharsAux : Nat → Nat → List Char → List Char
  | 0, _, acc => acc
  | f + 1, n, acc =>
    if n < 10 then Nat.digitChar n :: acc
    else natCharsAux f (n / 10) (Nat.digitChar (n % 10) :: acc)

/-- Decimal digits of a natural number. -/
def natChars (n : Nat) : List Char := natCharsAux (n + 1) n []

/-- Python `str(int)`: optional sign followed by decimal digits. -/
def intChars (i : Int) : List Char :=
  if i < 0 then '-' :: natChars i.natAbs else natChars i.toNat

/-- Python `str.replace("+-", "-")`: left-to-right non-overlapping
replacement of `+-` by `-`. -/
def pyReplacePlusMinus : List Char → List Char
  | [] => []
  | [c] => [c]
  | c :: d :: rest =>
    if c = '+' ∧ d = '-' then '-' :: pyReplacePlusMinus rest
    else c :: pyReplacePlusMinus (d :: rest)

/-- Rendering of one term of `Expression.__str__`: coefficient `1` as `s`,
`-1` as `-s`, any other `k` as `k*s`. -/
def termPart (s : String) (k : Int) : List Char :=
  if k = 1 then s.data
  else if k = -1 then '-' :: s.data
  else intChars k ++ '*' :: s.data

/-- The `parts` list built by `Expression.__str__`: sorted term renderings
followed by the constant when it is nonzero. (The canonical representation
is already sorted, matching `sorted(self._terms.items())`.) -/
def strParts (e : Expression) : List (List Char) :=
  e.terms.map (fun p => termPart p.1 p.2) ++
    (if e.constant ≠ 0 then [intChars e.constant] else [])

/-- Python `"+".join(parts)`. -/
def joinPlus : List (List Char) → List Char
  | [] => []
  | [p] => p
  | p :: ps => p ++ '+' :: joinPlus ps

/-- `Expression.__str__`: a scalar renders as its constant; otherwise the
parts are joined with `+` and `+-` is rewritten to `-`.  (The final
`res if res else "0"` fallback only fires for the scalar-free empty-parts
case, which cannot occur since a non-scalar has at least one term.) -/
def Expression.strE (e : Expression) : List Char :=
  if e.terms.isEmpty then intChars e.constant
  else pyReplacePlusMinus (joinPlus (strParts e))

/-- `str(e)` as a `String`. -/
def Expression.toStr (e : Expression) : String := ⟨e.strE⟩

/-! ### Expression tokenizer — `re.split(r"([+*\-()])|\s+", text)` keeping
nonempty, non-whitespace pieces: each operator character is its own token,
whitespace separates, and maximal runs of other characters form tokens. -/

/-- The five operator characters captured by the split pattern
(`+` 43, `*` 42, `-` 45, `(` 40, `)` 41). -/
def isSpecialChar (c : Char) : Bool :=
  c.toNat = 43 || c.toNat = 42 || c.toNat = 45 || c.toNat = 40 || c.toNat = 41

/-- Whitespace recognised by `\s` (ASCII fragment: space, tab, newline,
carriage return). -/
def isWsChar (c : Char) : Bool :=
  c.toNat = 32 || c.toNat = 9 || c.toNat = 10 || c.toNat = 13

/-- Emit the pending buffer as a token if it is nonempty. -/
def flushBuf (buf : List Char) : List (List Char) :=
  if buf.isEmpty then [] else [buf]

/-- Buffer-passing tokenizer. -/
def tokAux : List Char → List Char → List (List Char)
  | [], buf => flushBuf buf
  | c :: cs, buf =>
    if isSpecialChar c then flushBuf buf ++ [c] :: tokAux cs []
    else if isWsChar c then flushBuf buf ++ tokAux cs []
    else tokAux cs (buf ++ [c])

/-- Token list of an expression source string. -/
def tokenizeExpr (s : String) : List (List Char) := tokAux s.data []

/-! ### Expression recursive-descent interpretation
(`Expression.parse` inner functions `parse_expr`, `parse_term`,
`parse_factor`).  `parse_factor` returns either a Python `int` or an
`Expression`; the multiplication in `parse_term` dispatches on that union. -/

/-- The `Union[Expression, int]` returned by `parse_factor`. -/
inductive PyVal where
  | int (n : Int)
  | expr (e : Expression)
deriving Repr, DecidableEq

/-- A digit in `0`-`9` (code points 48-57; `str.isdigit` on ASCII). -/
def isDigitChar (c : Char) : Bool := 48 ≤ c.toNat && c.toNat ≤ 57

/-- `token.isdigit()`: nonempty and all digits. -/
def isDigitTok (t : List Char) : Bool := !t.isEmpty && t.all isDigitChar

/-- Value of a decimal digit string (`int(token)` on a digit token; `0` has
code point 48). -/
def digitsVal (t : List Char) : Nat :=
  t.foldl (fun a c => a * 10 + (c.toNat - 48)) 0

/-- First character of a symbol: `[a-zA-Z_.]` (code points 97-122, 65-90,
95 and 46). -/
def isSymFirstChar (c : Char) : Bool :=
  (97 ≤ c.toNat && c.toNat ≤ 122) || (65 ≤ c.toNat && c.toNat ≤ 90) ||
    c.toNat = 95 || c.toNat = 46

/-- Later characters of a symbol: `[a-zA-Z0-9_.]`. -/
def isSymChar (c : Char) : Bool := isSymFirstChar c || isDigitChar c

/-- `re.match(r"^[a-zA-Z_.][a-zA-Z0-9_.]*$", token)`. -/
def isSymbolTok (t : List Char) : Bool :=
  match t with
  | [] => false
  | c :: cs => isSymFirstChar c && cs.all isSymChar

/-- `Expression(node)` — the coercion at the end of `parse_term`. -/
def pyValToExpression : PyVal → Expression
  | .int n => Expression.ofInt n
  | .expr e => e

/-- `Expression(0) - v` — the unary-minus combination in `parse_factor`. -/
def zeroSub : PyVal → Expression
  | .int n => Expression.subInt (Expression.ofInt 0) n
  | .expr e => Expression.sub (Expression.ofInt 0) e

/-- The `token.startswith("-") and token[1:].isdigit()` test of
`parse_factor` (unreachable for tokenizer output, embedded for fidelity). -/
def isNegDigitTok (t : List Char) : Bool :=
  match t with
  | c :: rest => c = '-' && isDigitTok rest
  | [] => false

/-- The `match (node, rhs)` dispatch of `parse_term`'s multiplication: two
`Expression`s raise the non-linear error, otherwise the integer side scales
the other (`int.__mul__` deferring to `Expression.__rmul__`). -/
def mulStep (node rhs : PyVal) : Except PyErr PyVal :=
  match node, rhs with
  | .expr _, .expr _ =>
    .error (.valueError "Non-linear error: Cannot multiply two symbols.")
  | .expr x, .int n => .ok (.expr (x.mulInt n))
  | .int n, .expr y => .ok (.expr (y.mulInt n))
  | .int n, .int m => .ok (.int (n * m))

mutual

/-- `parse_expr`: a term followed by `(+|-) term` repetitions. -/
def parseExprFn : Nat → List (List Char) → Except PyErr (Expression × List (List Char))
  | 0, _ => .error .fuel
  | f + 1, ts =>
    parseTermFn f ts >>= fun p => parseExprLoop f p.1 p.2

/-- The `while peek() in ("+", "-")` loop of `parse_expr`. -/
def parseExprLoop : Nat → Expression → List (List Char) →
    Except PyErr (Expression × List (List Char))
  | 0, _, _ => .error .fuel
  | f + 1, node, ts =>
    match ts with
    | t :: rest =>
      if t = ['+'] then
        parseTermFn f rest >>= fun p => parseExprLoop f (node.add p.1) p.2
      else if t = ['-'] then
        parseTermFn f rest >>= fun p => parseExprLoop f (node.sub p.1) p.2
      else .ok (node, t :: rest)
    | [] => .ok (node, [])

/-- `parse_term`: a factor followed by `* factor` repetitions, coerced to an
`Expression` on exit. -/
def parseTermFn : Nat → List (List Char) → Except PyErr (Expression × List (List Char))
  | 0, _ => .error .fuel
  | f + 1, ts =>
    parseFactorFn f ts >>= fun p =>
      parseTermLoop f p.1 p.2 >>= fun q => .ok (pyValToExpression q.1, q.2)

/-- The `while peek() == "*"` loop of `parse_term`. -/
def parseTermLoop : Nat → PyVal → List (List Char) →
    Except PyErr (PyVal × List (List Char))
  | 0, _, _ => .error .fuel
  | f + 1, node, ts =>
    match ts with
    | t :: rest =>
      if t = ['*'] then
        parseFactorFn f rest >>= fun p =>
          mulStep node p.1 >>= fun v => parseTermLoop f v p.2
      else .ok (node, t :: rest)
    | [] => .ok (node, [])

/-- `parse_factor`: parenthesised expression, unary sign, integer or
symbol. -/
def parseFactorFn : Nat → List (List Char) → Except PyErr (PyVal × List (List Char))
  | 0, _ => .error .fuel
  | f + 1, ts =>
    match ts with
    | [] => .error (.valueError "Unexpected end of expression")
    | t :: rest =>
      if t = ['('] then
        parseExprFn f rest >>= fun p =>
          match p.2 with
          | u :: after =>
            if u = [')'] then .ok (.expr p.1, after)
            else .error (.valueError "Expected token")
          | [] => .error (.valueError "Expected token")
      else if t = ['-'] then
        parseFactorFn f rest >>= fun p => .ok (.expr (zeroSub p.1), p.2)
      else if t = ['+'] then parseFactorFn f rest
      else if isDigitTok t then .ok (.int (digitsVal t), rest)
      else if isNegDigitTok t then .ok (.int (-(digitsVal (t.drop 1) : Int)), rest)
      else if isSymbolTok t then .ok (.expr (Expression.ofSym ⟨t⟩), rest)
      else .error (.valueError "Unexpected token")

end

/-- Fuel sufficient for any token list (each recursive call either consumes a
token or moves one level down the three-level grammar). -/
def exprFuel (ts : List (List Char)) : Nat := 10 * ts.length + 10

/-- `Expression.parse`: tokenize, treat an empty token list as
`Expression(0)`, parse an expression and require all tokens consumed. -/
def parseExpression (s : String) : Except PyErr Expression :=
  let ts := tokenizeExpr s
  if ts.isEmpty then pure (Expression.ofInt 0)
  else do
    let (e, rest) ← parseExprFn (exprFuel ts) ts
    if rest.isEmpty then pure e
    else .error (.valueError "Unexpected extra tokens")


/-! ## Ground lemmas for the expression round-trip -/

theorem charsLtB_asymm : ∀ (as bs : List Char),
    charsLtB as bs = true → charsLtB bs as = false
  | [], [] => by simp [charsLtB]
  | [], _ :: _ => by simp [charsLtB]
  | _ :: _, [] => by simp [charsLtB]
  | a :: as, b :: bs => by
    simp only [charsLtB, charLtB, Bool.or_eq_true, Bool.and_eq_true, decide_eq_true_eq]
    intro h
    have hne : a.toNat < b.toNat ∨ (a = b ∧ charsLtB as bs = true) := by
      rcases h with h | ⟨h1, h2⟩
      · exact Or.inl h
      · exact Or.inr ⟨h1, h2⟩
    simp only [Bool.or_eq_false_iff, Bool.and_eq_false_iff, decide_eq_false_iff_not]
    rcases hne with hlt | ⟨heq, hcs⟩
    · constructor
      · omega
      · left
        intro hba
        subst hba
        omega
    · subst heq
      exact ⟨by omega, Or.inr (charsLtB_asymm as bs hcs)⟩

theorem strLtB_asymm (a b : String) (h : strLtB a b = true) : strLtB b a = false :=
  charsLtB_asymm a.data b.data h

theorem cleanupTerms_of_nonzero (ts : List (String × Int))
    (h : ∀ p ∈ ts, p.2 ≠ 0) : cleanupTerms ts = ts := by
  unfold cleanupTerms
  rw [List.filter_eq_self]
  intro p hp
  simpa using h p hp

theorem mergeTerms_nil_right (ts : List (String × Int)) (h : ∀ p ∈ ts, p.2 ≠ 0) :
    mergeTerms ts [] = ts := cleanupTerms_of_nonzero ts h

theorem addTermRaw_append (ts : List (String × Int)) (s : String) (k : Int)
    (hlt : ∀ p ∈ ts, strLtB p.1 s = true) :
    addTermRaw ts s k = ts ++ [(s, k)] := by
  induction ts with
  | nil => rfl
  | cons p ts ih =>
    obtain ⟨t, l⟩ := p
    have h1 : strLtB t s = true := hlt (t, l) (by simp)
    have h2 : strLtB s t = false := strLtB_asymm t s h1
    simp only [addTermRaw, h1, h2, Bool.false_eq_true, if_false, if_true,
      List.cons_append, List.cons.injEq, true_and]
    exact ih fun q hq => hlt q (List.mem_cons_of_mem _ hq)

theorem mergeTerms_append_singleton (ts : List (String × Int)) (s : String) (k : Int)
    (hk : k ≠ 0) (hnz : ∀ p ∈ ts, p.2 ≠ 0) (hlt : ∀ p ∈ ts, strLtB p.1 s = true) :
    mergeTerms ts [(s, k)] = ts ++ [(s, k)] := by
  show cleanupTerms (addTermRaw ts s k) = ts ++ [(s, k)]
  rw [addTermRaw_append ts s k hlt]
  refine cleanupTerms_of_nonzero _ ?_
  intro p hp
  rcases List.mem_append.mp hp with hp | hp
  · exact hnz p hp
  · simp only [List.mem_singleton] at hp
    subst hp; exact hk

theorem digitChar_isDigit (n : Nat) (h : n < 10) :
    isDigitChar (Nat.digitChar n) = true := by
  interval_cases n <;> decide

theorem digitChar_val (n : Nat) (h : n < 10) :
    (Nat.digitChar n).toNat - 48 = n := by
  interval_cases n <;> decide

theorem natCharsAux_digits (f : Nat) :
    ∀ (n : Nat) (acc : List Char), (∀ c ∈ acc, isDigitChar c = true) →
      ∀ c ∈ natCharsAux f n acc, isDigitChar c = true := by
  induction f with
  | zero => intro n acc hacc; simpa [natCharsAux] using hacc
  | succ f ih =>
    intro n acc hacc
    simp only [natCharsAux]
    split
    · intro c hc
      rcases List.mem_cons.mp hc with rfl | hc
      · exact digitChar_isDigit _ (by omega)
      · exact hacc _ hc
    · refine ih _ _ ?_
      intro c hc
      rcases List.mem_cons.mp hc with rfl | hc
      · exact digitChar_isDigit _ (Nat.mod_lt _ (by omega))
      · exact hacc _ hc

theorem natChars_digits (n : Nat) : ∀ c ∈ natChars n, isDigitChar c = true :=
  natCharsAux_digits _ _ _ (by simp)

theorem natCharsAux_ne_nil (f : Nat) :
    ∀ (n : Nat) (acc : List Char), acc ≠ [] ∨ 0 < f → natCharsAux f n acc ≠ [] := by
  induction f with
  | zero =>
    intro n acc h
    simpa [natCharsAux] using h.resolve_right (by omega)
  | succ f ih =>
    intro n acc _
    simp only [natCharsAux]
    split
    · simp
    · exact ih _ _ (Or.inl (by simp))

theorem natChars_ne_nil (n : Nat) : natChars n ≠ [] :=
  natCharsAux_ne_nil _ _ _ (Or.inr (by omega))

theorem isDigitTok_natChars (n : Nat) : isDigitTok (natChars n) = true := by
  unfold isDigitTok
  rcases hc : natChars n with _ | ⟨c, cs⟩
  · exact absurd hc (natChars_ne_nil n)
  · have h2 := natChars_digits n
    rw [hc] at h2
    simp only [List.isEmpty_cons, Bool.not_false, Bool.true_and, List.all_eq_true]
    exact h2

theorem natCharsAux_acc (f : Nat) :
    ∀ (n : Nat) (acc : List Char), natCharsAux f n acc = natCharsAux f n [] ++ acc := by
  induction f with
  | zero => intro n acc; simp [natCharsAux]
  | succ f ih =>
    intro n acc
    simp only [natCharsAux]
    split
    · simp
    · rw [ih _ ([Nat.digitChar (n % 10)]), ih _ (Nat.digitChar (n % 10) :: acc)]
      simp

theorem natCharsAux_fuel (f₁ f₂ n : Nat) (h₁ : n < f₁) (h₂ : n < f₂) :
    natCharsAux f₁ n [] = natCharsAux f₂ n [] := by
  induction n using Nat.strong_induction_on generalizing f₁ f₂ with
  | _ n ih =>
    cases f₁ with
    | zero => omega
    | succ g₁ =>
      cases f₂ with
      | zero => omega
      | succ g₂ =>
        simp only [natCharsAux]
        split
        · rfl
        · rw [natCharsAux_acc g₁, natCharsAux_acc g₂,
            ih (n / 10) (by omega) g₁ g₂ (by omega) (by omega)]

theorem digitsVal_append_digit (xs : List Char) (c : Char) :
    digitsVal (xs ++ [c]) = digitsVal xs * 10 + (c.toNat - 48) := by
  simp [digitsVal, List.foldl_append]

theorem digitsVal_natChars (n : Nat) : digitsVal (natChars n) = n := by
  induction n using Nat.strong_induction_on with
  | _ n ih =>
    unfold natChars natCharsAux
    split
    · show digitsVal [Nat.digitChar n] = n
      simp only [digitsVal, List.foldl]
      rw [show (0 : Nat) * 10 + ((Nat.digitChar n).toNat - 48)
          = (Nat.digitChar n).toNat - 48 by omega]
      exact digitChar_val n (by omega)
    · rw [natCharsAux_acc, natCharsAux_fuel n (n / 10 + 1) (n / 10) (by omega) (by omega)]
      rw [show natCharsAux (n / 10 + 1) (n / 10) [] = natChars (n / 10) from rfl]
      rw [digitsVal_append_digit, ih (n / 10) (by omega), digitChar_val _ (Nat.mod_lt _ (by omega))]
      omega

/-! ### Tokenizer lemmas -/

/-- A buffer character: neither an operator nor whitespace. -/
def PlainChar (c : Char) : Prop := isSpecialChar c = false ∧ isWsChar c = false

theorem symChar_plain (c : Char) (h : isSymChar c = true) : PlainChar c := by
  simp only [isSymChar, isSymFirstChar, isDigitChar, Bool.or_eq_true, Bool.and_eq_true,
    decide_eq_true_eq] at h
  constructor <;>
    simp only [isSpecialChar, isWsChar, Bool.or_eq_false_iff, decide_eq_false_iff_not] <;>
    omega

theorem digitChar_plain (c : Char) (h : isDigitChar c = true) : PlainChar c :=
  symChar_plain c (by simp [isSymChar, h])

theorem tokAux_plain_chunk (xs : List Char) :
    ∀ (ys buf : List Char), (∀ c ∈ xs, PlainChar c) →
      tokAux (xs ++ ys) buf = tokAux ys (buf ++ xs) := by
  induction xs with
  | nil => intro ys buf _; simp
  | cons c xs ih =>
    intro ys buf h
    obtain ⟨h1, h2⟩ := h c (by simp)
    simp only [List.cons_append, tokAux, h1, h2, Bool.false_eq_true, if_false,
      List.append_eq]
    rw [ih ys (buf ++ [c]) fun d hd => h d (List.mem_cons_of_mem _ hd)]
    simp

/-- The tail after a token run: empty, or starting with an operator
character. -/
def StartsSpec (l : List Char) : Prop :=
  l = [] ∨ ∃ c t, l = c :: t ∧ isSpecialChar c = true

theorem tokAux_special (c : Char) (t : List Char) (h : isSpecialChar c = true) :
    tokAux (c :: t) [] = [c] :: tokAux t [] := by
  simp [tokAux, h, flushBuf]

theorem tokAux_run (xs tail : List Char) (hx : xs ≠ [])
    (hplain : ∀ c ∈ xs, PlainChar c) (htail : StartsSpec tail) :
    tokAux (xs ++ tail) [] = xs :: tokAux tail [] := by
  rw [tokAux_plain_chunk xs tail [] hplain]
  simp only [List.nil_append]
  rcases htail with rfl | ⟨c, t, rfl, hc⟩
  · simp [tokAux, flushBuf, hx]
  · simp [tokAux, hc, flushBuf, hx]

theorem symTok_chars (s : String) (h : isSymbolTok s.data = true) :
    ∀ c ∈ s.data, isSymChar c = true := by
  rcases hd : s.data with _ | ⟨c, cs⟩
  · simp
  · rw [hd] at h
    simp only [isSymbolTok, Bool.and_eq_true, List.all_eq_true] at h
    intro d hdm
    rcases List.mem_cons.mp hdm with rfl | hdm
    · simp [isSymChar, h.1]
    · exact h.2 d hdm

theorem symTok_ne_nil (s : String) (h : isSymbolTok s.data = true) : s.data ≠ [] := by
  intro hc
  rw [hc] at h
  simp [isSymbolTok] at h

/-! ### Shape of the rendered string and its tokens -/

/-- Tokens of a non-leading term, separator included. -/
def termToksRest (s : String) (k : Int) : List (List Char) :=
  if k = 1 then [['+'], s.data]
  else if k = -1 then [['-'], s.data]
  else if k < 0 then [['-'], natChars k.natAbs, ['*'], s.data]
  else [['+'], natChars k.toNat, ['*'], s.data]

/-- Tokens of the leading term. -/
def termToksLead (s : String) (k : Int) : List (List Char) :=
  if k = 1 then [s.data]
  else if k = -1 then [['-'], s.data]
  else if k < 0 then [['-'], natChars k.natAbs, ['*'], s.data]
  else [natChars k.toNat, ['*'], s.data]

/-- Tokens of the trailing constant. -/
def constToks (c : Int) : List (List Char) :=
  if 0 < c then [['+'], natChars c.toNat]
  else if c < 0 then [['-'], natChars c.natAbs]
  else []

/-- The token list of `str(e)`. -/
def exprToks (e : Expression) : List (List Char) :=
  match e.terms with
  | [] =>
    if e.constant < 0 then [['-'], natChars e.constant.natAbs]
    else [natChars e.constant.toNat]
  | (s, k) :: rest =>
    termToksLead s k ++ rest.flatMap (fun p => termToksRest p.1 p.2) ++
      constToks e.constant

/-- Character-level rendering of a non-leading term, separator included. -/
def renderRest (s : String) (k : Int) : List Char :=
  if k = 1 then '+' :: s.data
  else if k = -1 then '-' :: s.data
  else if k < 0 then '-' :: (natChars k.natAbs ++ '*' :: s.data)
  else '+' :: (natChars k.toNat ++ '*' :: s.data)

/-- Character-level rendering of the trailing constant. -/
def renderConst (c : Int) : List Char :=
  if 0 < c then '+' :: natChars c.toNat
  else if c < 0 then '-' :: natChars c.natAbs
  else []

/-- A well-behaved part of `__str__`: nonempty and free of `+`. -/
def GoodPart (p : List Char) : Prop := p ≠ [] ∧ '+' ∉ p

/-- How `"+".join` followed by the `+-` rewrite treats one non-leading part:
a part starting with `-` absorbs the separator, any other keeps its `+`. -/
def sepForm (p : List Char) : List Char :=
  if p.head? = some '-' then p else '+' :: p

theorem pyReplace_cons_ne_plus (c : Char) (t : List Char) (h : c ≠ '+') :
    pyReplacePlusMinus (c :: t) = c :: pyReplacePlusMinus t := by
  cases t with
  | nil => simp [pyReplacePlusMinus]
  | cons d t =>
    simp only [pyReplacePlusMinus]
    rw [if_neg (fun hand => h hand.1)]

theorem pyReplace_no_plus_chunk (xs : List Char) :
    ∀ ys, '+' ∉ xs → pyReplacePlusMinus (xs ++ ys) = xs ++ pyReplacePlusMinus ys := by
  induction xs with
  | nil => intro ys _; rfl
  | cons c xs ih =>
    intro ys h
    have hc : c ≠ '+' := fun hc => h (hc ▸ List.mem_cons_self c xs)
    rw [List.cons_append, pyReplace_cons_ne_plus c _ hc,
      ih ys (fun hm => h (List.mem_cons_of_mem _ hm)), List.cons_append]

theorem pyReplace_no_plus (xs : List Char) (h : '+' ∉ xs) :
    pyReplacePlusMinus xs = xs := by
  have h2 := pyReplace_no_plus_chunk xs [] h
  simpa [pyReplacePlusMinus] using h2

theorem pyReplace_plus_minus (ys : List Char) :
    pyReplacePlusMinus ('+' :: '-' :: ys) = '-' :: pyReplacePlusMinus ys := by
  simp [pyReplacePlusMinus]

theorem pyReplace_plus_other (c : Char) (ys : List Char) (h : c ≠ '-') :
    pyReplacePlusMinus ('+' :: c :: ys) = '+' :: pyReplacePlusMinus (c :: ys) := by
  simp only [pyReplacePlusMinus]
  rw [if_neg (fun hand => h hand.2)]

theorem pyReplace_join_tail : ∀ (ps : List (List Char)), ps ≠ [] →
    (∀ p ∈ ps, GoodPart p) →
    pyReplacePlusMinus ('+' :: joinPlus ps) = (ps.map sepForm).flatten := by
  intro ps
  induction ps with
  | nil => intro h; exact absurd rfl h
  | cons q qs ih =>
    intro _ hgood
    obtain ⟨hq1, hq2⟩ := hgood q (by simp)
    rcases hd : q with _ | ⟨c, q'⟩
    · exact absurd hd hq1
    subst hd
    have hq2' : '+' ∉ q' := fun hm => hq2 (List.mem_cons_of_mem _ hm)
    have hcp : c ≠ '+' := fun hc => hq2 (hc ▸ List.mem_cons_self _ _)
    cases qs with
    | nil =>
      have hj : joinPlus [c :: q'] = c :: q' := rfl
      rw [hj]
      by_cases hcm : c = '-'
      · subst hcm
        rw [pyReplace_plus_minus, pyReplace_no_plus q' hq2']
        simp [sepForm]
      · rw [pyReplace_plus_other c q' hcm, pyReplace_cons_ne_plus c q' hcp,
          pyReplace_no_plus q' hq2']
        simp [sepForm, hcm]
    | cons r rs =>
      have hj : joinPlus ((c :: q') :: r :: rs) = (c :: q') ++ '+' :: joinPlus (r :: rs) :=
        rfl
      rw [hj]
      by_cases hcm : c = '-'
      · subst hcm
        rw [show ('-' :: q') ++ '+' :: joinPlus (r :: rs)
            = '-' :: (q' ++ '+' :: joinPlus (r :: rs)) from rfl,
          pyReplace_plus_minus, pyReplace_no_plus_chunk q' _ hq2',
          ih (by simp) (fun p hp => hgood p (List.mem_cons_of_mem _ hp))]
        simp [sepForm]
      · rw [show ((c :: q') ++ '+' :: joinPlus (r :: rs))
            = c :: (q' ++ '+' :: joinPlus (r :: rs)) from rfl,
          pyReplace_plus_other c _ hcm, pyReplace_cons_ne_plus c _ hcp,
          pyReplace_no_plus_chunk q' _ hq2',
          ih (by simp) (fun p hp => hgood p (List.mem_cons_of_mem _ hp))]
        simp [sepForm, hcm]

theorem pyReplace_join (p : List Char) (ps : List (List Char))
    (hp : GoodPart p) (hps : ∀ q ∈ ps, GoodPart q) :
    pyReplacePlusMinus (joinPlus (p :: ps)) = p ++ (ps.map sepForm).flatten := by
  cases ps with
  | nil =>
    have hj : joinPlus [p] = p := rfl
    rw [hj, pyReplace_no_plus p hp.2]
    simp
  | cons r rs =>
    have hj : joinPlus (p :: r :: rs) = p ++ '+' :: joinPlus (r :: rs) := rfl
    rw [hj, pyReplace_no_plus_chunk p _ hp.2,
      pyReplace_join_tail (r :: rs) (by simp) hps]

/-! ### Parts of the rendered string are well behaved -/

theorem symChar_ne_plus (c : Char) (h : isSymChar c = true) : c ≠ '+' := by
  intro hc; subst hc; exact absurd h (by decide)

theorem symChar_ne_minus_first (c : Char) (h : isSymFirstChar c = true) : c ≠ '-' := by
  intro hc; subst hc; exact absurd h (by decide)

theorem digitChar_ne_plus (c : Char) (h : isDigitChar c = true) : c ≠ '+' := by
  intro hc; subst hc; exact absurd h (by decide)

theorem digitChar_ne_minus (c : Char) (h : isDigitChar c = true) : c ≠ '-' := by
  intro hc; subst hc; exact absurd h (by decide)

theorem no_plus_natChars (n : Nat) : '+' ∉ natChars n := fun hm =>
  digitChar_ne_plus '+' (natChars_digits n '+' hm) rfl

theorem no_plus_symTok (s : String) (hs : isSymbolTok s.data = true) :
    '+' ∉ s.data := fun hm =>
  symChar_ne_plus '+' (symTok_chars s hs '+' hm) rfl

theorem intChars_ne_nil (c : Int) : intChars c ≠ [] := by
  unfold intChars
  split
  · simp
  · exact natChars_ne_nil _

theorem no_plus_intChars (c : Int) : '+' ∉ intChars c := by
  unfold intChars
  split
  · intro hm
    rcases List.mem_cons.mp hm with hm | hm
    · exact absurd hm.symm (by decide)
    · exact no_plus_natChars _ hm
  · exact no_plus_natChars _

theorem goodPart_termPart (s : String) (k : Int) (hs : isSymbolTok s.data = true) :
    GoodPart (termPart s k) := by
  have hsp := no_plus_symTok s hs
  have hsn := symTok_ne_nil s hs
  unfold termPart GoodPart
  split
  · exact ⟨hsn, hsp⟩
  · split
    · refine ⟨by simp, fun hm => ?_⟩
      rcases List.mem_cons.mp hm with hm | hm
      · exact absurd hm.symm (by decide)
      · exact hsp hm
    · refine ⟨by simp [intChars_ne_nil], fun hm => ?_⟩
      rcases List.mem_append.mp hm with hm | hm
      · exact no_plus_intChars _ hm
      · rcases List.mem_cons.mp hm with hm | hm
        · exact absurd hm.symm (by decide)
        · exact hsp hm

theorem goodPart_intChars (c : Int) : GoodPart (intChars c) :=
  ⟨intChars_ne_nil c, no_plus_intChars c⟩

theorem natChars_head_not_minus (n : Nat) :
    ∀ d t, natChars n = d :: t → d ≠ '-' := by
  intro d t hd
  have := natChars_digits n d (by rw [hd]; simp)
  exact digitChar_ne_minus d this

theorem sepForm_termPart (s : String) (k : Int) (hs : isSymbolTok s.data = true)
    (_hk : k ≠ 0) : sepForm (termPart s k) = renderRest s k := by
  unfold termPart renderRest
  by_cases h1 : k = 1
  · simp only [h1, if_true]
    rcases hd : s.data with _ | ⟨c, cs⟩
    · exact absurd hd (symTok_ne_nil s hs)
    · have hc : isSymFirstChar c = true := by
        rw [hd] at hs
        simp only [isSymbolTok, Bool.and_eq_true] at hs
        exact hs.1
      have := symChar_ne_minus_first c hc
      simp [sepForm, hd, this]
  · simp only [h1, if_false]
    by_cases h2 : k = -1
    · simp [h2, sepForm]
    · simp only [h2, if_false]
      by_cases h3 : k < 0
      · simp only [h3, if_true]
        have : intChars k = '-' :: natChars k.natAbs := by unfold intChars; simp [h3]
        rw [this]
        simp [sepForm]
      · simp only [h3, if_false]
        have : intChars k = natChars k.toNat := by unfold intChars; simp [h3]
        rw [this]
        rcases hd : natChars k.toNat with _ | ⟨d, t⟩
        · exact absurd hd (natChars_ne_nil _)
        · have := natChars_head_not_minus k.toNat d t hd
          simp [sepForm, this]

theorem sepForm_intChars (c : Int) (hc : c ≠ 0) :
    sepForm (intChars c) = renderConst c := by
  unfold intChars renderConst
  by_cases h1 : c < 0
  · simp [h1, sepForm, show ¬ (0 < c) by omega]
  · have h2 : 0 < c := by omega
    simp only [h1, if_false, h2, if_true]
    rcases hd : natChars c.toNat with _ | ⟨d, t⟩
    · exact absurd hd (natChars_ne_nil _)
    · have := natChars_head_not_minus c.toNat d t hd
      simp [sepForm, hd, this]

theorem strE_decomp (e : Expression) (s : String) (k : Int)
    (rest : List (String × Int)) (ht : e.terms = (s, k) :: rest)
    (hs : ∀ q ∈ e.terms, isSymbolTok q.1.data = true)
    (hnz : ∀ p ∈ e.terms, p.2 ≠ 0) :
    e.strE = termPart s k ++
      ((rest.map fun p => renderRest p.1 p.2).flatten ++ renderConst e.constant) := by
  unfold Expression.strE
  rw [ht]
  simp only [List.isEmpty_cons, Bool.false_eq_true, if_false]
  unfold strParts
  rw [ht]
  simp only [List.map_cons]
  have hgoodtail : ∀ q ∈ (rest.map fun p => termPart p.1 p.2) ++
      (if e.constant ≠ 0 then [intChars e.constant] else []), GoodPart q := by
    intro q hq
    rcases List.mem_append.mp hq with hq | hq
    · obtain ⟨p, hp, rfl⟩ := List.mem_map.mp hq
      exact goodPart_termPart p.1 p.2 (hs p (by rw [ht]; exact List.mem_cons_of_mem _ hp))
    · split at hq
      · rcases List.mem_singleton.mp hq with rfl
        exact goodPart_intChars _
      · exact absurd hq (by simp)
  rw [List.cons_append, pyReplace_join _ _
    (goodPart_termPart s k (hs (s, k) (by rw [ht]; exact List.mem_cons_self _ _)))
    hgoodtail]
  congr 1
  rw [List.map_append, List.flatten_append]
  congr 1
  · congr 1
    rw [List.map_map]
    apply List.map_congr_left
    intro p hp
    simp only [Function.comp_apply]
    exact sepForm_termPart p.1 p.2
      (hs p (by rw [ht]; exact List.mem_cons_of_mem _ hp))
      (hnz p (by rw [ht]; exact List.mem_cons_of_mem _ hp))
  · by_cases hc : e.constant = 0
    · simp [hc, renderConst]
    · simp only [hc, ne_eq, not_false_iff, if_true, List.map_cons, List.map_nil,
        List.flatten_cons, List.flatten_nil, List.append_nil]
      exact sepForm_intChars _ hc

/-! ### Tokenizing the rendered string -/

/-- Scalar tokens of `str(int)`. -/
def intToks (c : Int) : List (List Char) :=
  if c < 0 then [['-'], natChars c.natAbs] else [natChars c.toNat]

theorem symTok_plain (s : String) (hs : isSymbolTok s.data = true) :
    ∀ c ∈ s.data, PlainChar c := fun c hc =>
  symChar_plain c (symTok_chars s hs c hc)

theorem natChars_plain (n : Nat) : ∀ c ∈ natChars n, PlainChar c := fun c hc =>
  digitChar_plain c (natChars_digits n c hc)

theorem tok_natChars (n : Nat) (tail : List Char) (ht : StartsSpec tail) :
    tokAux (natChars n ++ tail) [] = natChars n :: tokAux tail [] :=
  tokAux_run _ _ (natChars_ne_nil n) (natChars_plain n) ht

theorem tok_symTok (s : String) (tail : List Char) (hs : isSymbolTok s.data = true)
    (ht : StartsSpec tail) :
    tokAux (s.data ++ tail) [] = s.data :: tokAux tail [] :=
  tokAux_run _ _ (symTok_ne_nil s hs) (symTok_plain s hs) ht

theorem startsSpec_cons_minus (t : List Char) : StartsSpec ('-' :: t) :=
  Or.inr ⟨'-', t, rfl, by decide⟩

theorem startsSpec_cons_plus (t : List Char) : StartsSpec ('+' :: t) :=
  Or.inr ⟨'+', t, rfl, by decide⟩

theorem startsSpec_cons_star (t : List Char) : StartsSpec ('*' :: t) :=
  Or.inr ⟨'*', t, rfl, by decide⟩

theorem tok_intChars (c : Int) (tail : List Char) (ht : StartsSpec tail) :
    tokAux (intChars c ++ tail) [] = intToks c ++ tokAux tail [] := by
  unfold intChars intToks
  split
  · rw [List.cons_append, tokAux_special _ _ (by decide), tok_natChars _ _ ht]
    rfl
  · rw [tok_natChars _ _ ht]
    rfl

theorem tok_termPart (s : String) (k : Int) (tail : List Char)
    (hs : isSymbolTok s.data = true) (ht : StartsSpec tail) :
    tokAux (termPart s k ++ tail) [] = termToksLead s k ++ tokAux tail [] := by
  unfold termPart termToksLead
  by_cases h1 : k = 1
  · simp only [h1, if_true]
    rw [tok_symTok s tail hs ht]
    rfl
  · simp only [h1, if_false]
    by_cases h2 : k = -1
    · simp only [h2, if_true]
      rw [List.cons_append, tokAux_special _ _ (by decide), tok_symTok s tail hs ht]
      rfl
    · simp only [h2, if_false]
      have hassoc : (intChars k ++ '*' :: s.data) ++ tail
          = intChars k ++ ('*' :: (s.data ++ tail)) := by simp
      rw [hassoc, tok_intChars k _ (startsSpec_cons_star _),
        tokAux_special _ _ (by decide), tok_symTok s tail hs ht]
      unfold intToks
      by_cases h3 : k < 0
      · simp [h3]
      · simp [h3, show ¬ k < 0 from h3]

theorem renderConst_startsSpec (c : Int) : StartsSpec (renderConst c) := by
  unfold renderConst
  split
  · exact startsSpec_cons_plus _
  · split
    · exact startsSpec_cons_minus _
    · exact Or.inl rfl

theorem chainTail_startsSpec (rest : List (String × Int)) (c : Int) :
    StartsSpec ((rest.map fun p => renderRest p.1 p.2).flatten ++ renderConst c) := by
  cases rest with
  | nil =>
    simp only [List.map_nil, List.flatten_nil, List.nil_append]
    exact renderConst_startsSpec c
  | cons p rest =>
    simp only [List.map_cons, List.flatten_cons, List.append_assoc]
    unfold renderRest
    split
    · exact startsSpec_cons_plus _
    · split
      · exact startsSpec_cons_minus _
      · split
        · exact startsSpec_cons_minus _
        · exact startsSpec_cons_plus _

theorem tok_renderConst (c : Int) :
    tokAux (renderConst c) [] = constToks c := by
  unfold renderConst constToks
  by_cases h1 : 0 < c
  · simp only [h1, if_true]
    rw [tokAux_special _ _ (by decide),
      show natChars c.toNat = natChars c.toNat ++ [] by simp,
      tok_natChars _ _ (Or.inl rfl)]
    simp [tokAux, flushBuf]
  · simp only [h1, if_false]
    by_cases h2 : c < 0
    · simp only [h2, if_true]
      rw [tokAux_special _ _ (by decide),
        show natChars c.natAbs = natChars c.natAbs ++ [] by simp,
        tok_natChars _ _ (Or.inl rfl)]
      simp [tokAux, flushBuf]
    · simp [h2, tokAux, flushBuf]

theorem renderRest_eq_one (s : String) : renderRest s 1 = '+' :: s.data := by
  unfold renderRest; simp

theorem renderRest_eq_negone (s : String) : renderRest s (-1) = '-' :: s.data := by
  unfold renderRest; simp

theorem renderRest_eq_neg (s : String) (k : Int) (h1 : k ≠ 1) (h2 : k ≠ -1)
    (h3 : k < 0) : renderRest s k = '-' :: (natChars k.natAbs ++ '*' :: s.data) := by
  unfold renderRest; simp [h1, h2, h3]

theorem renderRest_eq_pos (s : String) (k : Int) (h1 : k ≠ 1) (h2 : k ≠ -1)
    (h3 : ¬ k < 0) : renderRest s k = '+' :: (natChars k.toNat ++ '*' :: s.data) := by
  unfold renderRest; simp [h1, h2, h3]

theorem termToksRest_eq_one (s : String) : termToksRest s 1 = [['+'], s.data] := by
  unfold termToksRest; simp

theorem termToksRest_eq_negone (s : String) : termToksRest s (-1) = [['-'], s.data] := by
  unfold termToksRest; simp

theorem termToksRest_eq_neg (s : String) (k : Int) (h1 : k ≠ 1) (h2 : k ≠ -1)
    (h3 : k < 0) : termToksRest s k = [['-'], natChars k.natAbs, ['*'], s.data] := by
  unfold termToksRest; simp [h1, h2, h3]

theorem termToksRest_eq_pos (s : String) (k : Int) (h1 : k ≠ 1) (h2 : k ≠ -1)
    (h3 : ¬ k < 0) : termToksRest s k = [['+'], natChars k.toNat, ['*'], s.data] := by
  unfold termToksRest; simp [h1, h2, h3]

theorem tok_chain : ∀ (rest : List (String × Int)) (c : Int),
    (∀ p ∈ rest, isSymbolTok p.1.data = true) →
    tokAux ((rest.map fun p => renderRest p.1 p.2).flatten ++ renderConst c) []
      = rest.flatMap (fun p => termToksRest p.1 p.2) ++ constToks c := by
  intro rest
  induction rest with
  | nil =>
    intro c _
    simp only [List.map_nil, List.flatten_nil, List.nil_append, List.flatMap_nil]
    exact tok_renderConst c
  | cons q rest ih =>
    intro c hsym
    obtain ⟨s, k⟩ := q
    have hs : isSymbolTok s.data = true := hsym (s, k) (by simp)
    have hrest : ∀ p ∈ rest, isSymbolTok p.1.data = true :=
      fun p hp => hsym p (List.mem_cons_of_mem _ hp)
    simp only [List.map_cons, List.flatten_cons, List.append_assoc, List.flatMap_cons]
    have hREST := chainTail_startsSpec rest c
    by_cases h1 : k = 1
    · subst h1
      rw [renderRest_eq_one, termToksRest_eq_one, List.cons_append,
        tokAux_special _ _ (by decide), tok_symTok s _ hs hREST, ih c hrest]
      simp
    · by_cases h2 : k = -1
      · subst h2
        rw [renderRest_eq_negone, termToksRest_eq_negone, List.cons_append,
          tokAux_special _ _ (by decide), tok_symTok s _ hs hREST, ih c hrest]
        simp
      · by_cases h3 : k < 0
        · rw [renderRest_eq_neg s k h1 h2 h3, termToksRest_eq_neg s k h1 h2 h3,
            List.cons_append, tokAux_special _ _ (by decide),
            show (natChars k.natAbs ++ '*' :: s.data) ++
                ((rest.map fun p => renderRest p.1 p.2).flatten ++ renderConst c)
              = natChars k.natAbs ++ ('*' :: (s.data ++
                ((rest.map fun p => renderRest p.1 p.2).flatten ++ renderConst c)))
              by simp,
            tok_natChars _ _ (startsSpec_cons_star _),
            tokAux_special _ _ (by decide),
            tok_symTok s _ hs hREST, ih c hrest]
          simp
        · rw [renderRest_eq_pos s k h1 h2 h3, termToksRest_eq_pos s k h1 h2 h3,
            List.cons_append, tokAux_special _ _ (by decide),
            show (natChars k.toNat ++ '*' :: s.data) ++
                ((rest.map fun p => renderRest p.1 p.2).flatten ++ renderConst c)
              = natChars k.toNat ++ ('*' :: (s.data ++
                ((rest.map fun p => renderRest p.1 p.2).flatten ++ renderConst c)))
              by simp,
            tok_natChars _ _ (startsSpec_cons_star _),
            tokAux_special _ _ (by decide),
            tok_symTok s _ hs hREST, ih c hrest]
          simp

theorem tokens_strE (e : Expression)
    (hs : ∀ q ∈ e.terms, isSymbolTok q.1.data = true)
    (hnz : ∀ p ∈ e.terms, p.2 ≠ 0) :
    tokenizeExpr e.toStr = exprToks e := by
  have hdata : e.toStr.data = e.strE := rfl
  unfold tokenizeExpr
  rw [hdata]
  rcases ht : e.terms with _ | ⟨⟨s, k⟩, rest⟩
  · unfold Expression.strE
    rw [ht]
    simp only [List.isEmpty_nil, if_true]
    unfold exprToks
    rw [ht]
    unfold intChars
    split
    · rename_i hneg
      simp only [hneg, if_true]
      rw [tokAux_special _ _ (by decide),
        show natChars e.constant.natAbs = natChars e.constant.natAbs ++ [] by simp,
        tok_natChars _ _ (Or.inl rfl)]
      simp [tokAux, flushBuf]
    · rename_i hneg
      simp only [hneg, if_false]
      rw [show natChars e.constant.toNat = natChars e.constant.toNat ++ [] by simp,
        tok_natChars _ _ (Or.inl rfl)]
      simp [tokAux, flushBuf]
  · rw [strE_decomp e s k rest ht hs hnz]
    have hsk : isSymbolTok s.data = true := hs (s, k) (by rw [ht]; simp)
    have hrest : ∀ p ∈ rest, isSymbolTok p.1.data = true :=
      fun p hp => hs p (by rw [ht]; exact List.mem_cons_of_mem _ hp)
    rw [tok_termPart s k _ hsk (chainTail_startsSpec rest e.constant),
      tok_chain rest e.constant hrest]
    unfold exprToks
    rw [ht]
    simp

/-! ### Parsing the token list back -/

theorem symTok_ne_special (s : String) (hs : isSymbolTok s.data = true) :
    s.data ≠ ['('] ∧ s.data ≠ ['-'] ∧ s.data ≠ ['+'] := by
  refine ⟨fun h => ?_, fun h => ?_, fun h => ?_⟩ <;>
    (rw [h] at hs; exact absurd hs (by decide))

theorem symTok_not_digitTok (s : String) (hs : isSymbolTok s.data = true) :
    isDigitTok s.data = false := by
  rcases hd : s.data with _ | ⟨c, cs⟩
  · rfl
  · rw [hd] at hs
    simp only [isSymbolTok, Bool.and_eq_true] at hs
    have hc : isDigitChar c = false := by
      have := hs.1
      simp only [isSymFirstChar, Bool.or_eq_true, Bool.and_eq_true,
        decide_eq_true_eq] at this
      simp only [isDigitChar, Bool.and_eq_true, decide_eq_true_eq]
      simp only [Bool.and_eq_false_iff, decide_eq_false_iff_not]
      omega
    simp [isDigitTok, hc]

theorem symTok_not_negDigitTok (s : String) (hs : isSymbolTok s.data = true) :
    isNegDigitTok s.data = false := by
  rcases hd : s.data with _ | ⟨c, cs⟩
  · rfl
  · rw [hd] at hs
    simp only [isSymbolTok, Bool.and_eq_true] at hs
    have hc : c ≠ '-' := symChar_ne_minus_first c hs.1
    simp [isNegDigitTok, hc]

theorem digitTok_ne_special (t : List Char) (h : isDigitTok t = true) :
    t ≠ ['('] ∧ t ≠ ['-'] ∧ t ≠ ['+'] := by
  refine ⟨fun he => ?_, fun he => ?_, fun he => ?_⟩ <;>
    (rw [he] at h; exact absurd h (by decide))

theorem parseFactor_sym (f : Nat) (s : String) (ts : List (List Char))
    (hs : isSymbolTok s.data = true) :
    parseFactorFn (f + 1) (s.data :: ts) = .ok (.expr (Expression.ofSym s), ts) := by
  obtain ⟨h1, h2, h3⟩ := symTok_ne_special s hs
  simp only [parseFactorFn]
  rw [if_neg h1, if_neg h2, if_neg h3,
    if_neg (by rw [symTok_not_digitTok s hs]; exact Bool.false_ne_true),
    if_neg (by rw [symTok_not_negDigitTok s hs]; exact Bool.false_ne_true),
    if_pos hs]

theorem parseFactor_num (f : Nat) (n : Nat) (ts : List (List Char)) :
    parseFactorFn (f + 1) (natChars n :: ts) = .ok (.int n, ts) := by
  have hd := isDigitTok_natChars n
  obtain ⟨h1, h2, h3⟩ := digitTok_ne_special _ hd
  simp only [parseFactorFn]
  rw [if_neg h1, if_neg h2, if_neg h3, if_pos hd, digitsVal_natChars]

/-- The next token (if any) does not start a `* factor` continuation. -/
def NotStarTok (ts : List (List Char)) : Prop :=
  match ts with
  | t :: _ => t ≠ ['*']
  | [] => True

theorem parseTermLoop_exit (f : Nat) (v : PyVal) (ts : List (List Char))
    (h : NotStarTok ts) : parseTermLoop (f + 1) v ts = .ok (v, ts) := by
  cases ts with
  | nil => rfl
  | cons t ts =>
    simp only [parseTermLoop]
    rw [if_neg h]

theorem okBind {α β : Type} (a : α) (g : α → Except PyErr β) :
    ((Except.ok a : Except PyErr α) >>= g) = g a := rfl

theorem parseTermLoop_star (f : Nat) (v : PyVal) (rest : List (List Char)) :
    parseTermLoop (f + 1) v (['*'] :: rest)
      = parseFactorFn f rest >>= fun p =>
          mulStep v p.1 >>= fun w => parseTermLoop f w p.2 := rfl

theorem parseTermFn_step (f : Nat) (ts : List (List Char)) :
    parseTermFn (f + 1) ts
      = parseFactorFn f ts >>= fun p =>
          parseTermLoop f p.1 p.2 >>= fun q => .ok (pyValToExpression q.1, q.2) := rfl

theorem parseTerm_sym (f : Nat) (s : String) (ts : List (List Char))
    (hs : isSymbolTok s.data = true) (hts : NotStarTok ts) :
    parseTermFn (f + 2) (s.data :: ts) = .ok (Expression.ofSym s, ts) := by
  rw [show f + 2 = (f + 1) + 1 from rfl, parseTermFn_step, parseFactor_sym f s ts hs,
    okBind, parseTermLoop_exit f _ ts hts, okBind]
  rfl

theorem parseTerm_num (f : Nat) (n : Nat) (ts : List (List Char))
    (hts : NotStarTok ts) :
    parseTermFn (f + 2) (natChars n :: ts) = .ok (Expression.ofInt n, ts) := by
  rw [show f + 2 = (f + 1) + 1 from rfl, parseTermFn_step, parseFactor_num f n ts,
    okBind, parseTermLoop_exit f _ ts hts, okBind]
  rfl

theorem mulStep_int_expr (n : Int) (y : Expression) :
    mulStep (.int n) (.expr y) = .ok (.expr (y.mulInt n)) := rfl

theorem ofSym_mulInt (s : String) (n : Int) (hn : n ≠ 0) :
    (Expression.ofSym s).mulInt n = ⟨0, [(s, n)]⟩ := by
  unfold Expression.ofSym Expression.mulInt
  simp only [Expression.mk.injEq]
  exact ⟨by ring, by simp [hn]⟩

theorem parseTerm_mul (f : Nat) (m : Nat) (s : String) (ts : List (List Char))
    (hm : 0 < m) (hs : isSymbolTok s.data = true) (hts : NotStarTok ts) :
    parseTermFn (f + 4) (natChars m :: ['*'] :: s.data :: ts)
      = .ok (⟨0, [(s, (m : Int))]⟩, ts) := by
  rw [show f + 4 = (f + 3) + 1 from rfl, parseTermFn_step,
    show f + 3 = (f + 2) + 1 from rfl, parseFactor_num (f + 2) m _, okBind,
    parseTermLoop_star (f + 2) _ _,
    show f + 2 = (f + 1) + 1 from rfl, parseFactor_sym (f + 1) s ts hs, okBind,
    mulStep_int_expr, okBind,
    ofSym_mulInt s (m : Int) (by omega),
    parseTermLoop_exit (f + 1) _ ts hts, okBind]
  rfl

/-- The next token (if any) does not continue the additive loop. -/
def NotPlusMinusTok (ts : List (List Char)) : Prop :=
  match ts with
  | t :: _ => t ≠ ['+'] ∧ t ≠ ['-']
  | [] => True

theorem parseExprLoop_exit (f : Nat) (node : Expression) (ts : List (List Char))
    (hf : 0 < f) (h : NotPlusMinusTok ts) : parseExprLoop f node ts = .ok (node, ts) := by
  obtain ⟨g, rfl⟩ : ∃ g, f = g + 1 := ⟨f - 1, by omega⟩
  cases ts with
  | nil => rfl
  | cons t rest =>
    show (if t = ['+'] then _ else if t = ['-'] then _ else _) = _
    rw [if_neg h.1, if_neg h.2]

theorem parseExprLoop_plus (f : Nat) (node : Expression) (rest : List (List Char)) :
    parseExprLoop (f + 1) node (['+'] :: rest)
      = parseTermFn f rest >>= fun p => parseExprLoop f (node.add p.1) p.2 := rfl

theorem parseExprLoop_minus (f : Nat) (node : Expression) (rest : List (List Char)) :
    parseExprLoop (f + 1) node (['-'] :: rest)
      = parseTermFn f rest >>= fun p => parseExprLoop f (node.sub p.1) p.2 := by
  show (if (['-'] : List Char) = ['+']
      then parseTermFn f rest >>= fun p => parseExprLoop f (node.add p.1) p.2
      else if (['-'] : List Char) = ['-']
        then parseTermFn f rest >>= fun p => parseExprLoop f (node.sub p.1) p.2
        else .ok (node, ['-'] :: rest))
    = parseTermFn f rest >>= fun p => parseExprLoop f (node.sub p.1) p.2
  rw [if_neg (by decide), if_pos rfl]

theorem Expression.add_singleton (acc : Expression) (s : String) (k : Int)
    (hk : k ≠ 0) (hnz : ∀ p ∈ acc.terms, p.2 ≠ 0)
    (hlt : ∀ p ∈ acc.terms, strLtB p.1 s = true) :
    acc.add ⟨0, [(s, k)]⟩ = ⟨acc.constant, acc.terms ++ [(s, k)]⟩ := by
  unfold Expression.add
  rw [mergeTerms_append_singleton _ _ _ hk hnz hlt]
  simp

theorem Expression.sub_singleton (acc : Expression) (s : String) (k : Int)
    (hk : k ≠ 0) (hnz : ∀ p ∈ acc.terms, p.2 ≠ 0)
    (hlt : ∀ p ∈ acc.terms, strLtB p.1 s = true) :
    acc.sub ⟨0, [(s, k)]⟩ = ⟨acc.constant, acc.terms ++ [(s, -k)]⟩ := by
  unfold Expression.sub
  rw [show negTerms [(s, k)] = [(s, -k)] from rfl,
    mergeTerms_append_singleton _ _ _ (by omega) hnz hlt]
  simp

theorem Expression.add_scalar (acc : Expression) (c : Int)
    (hnz : ∀ p ∈ acc.terms, p.2 ≠ 0) :
    acc.add ⟨c, []⟩ = ⟨acc.constant + c, acc.terms⟩ := by
  unfold Expression.add
  rw [show mergeTerms acc.terms [] = cleanupTerms acc.terms from rfl,
    cleanupTerms_of_nonzero _ hnz]

theorem Expression.sub_scalar (acc : Expression) (c : Int)
    (hnz : ∀ p ∈ acc.terms, p.2 ≠ 0) :
    acc.sub ⟨c, []⟩ = ⟨acc.constant - c, acc.terms⟩ := by
  unfold Expression.sub
  rw [show negTerms [] = [] from rfl,
    show mergeTerms acc.terms [] = cleanupTerms acc.terms from rfl,
    cleanupTerms_of_nonzero _ hnz]

theorem chainToks_notStar (rest : List (String × Int)) (c : Int) :
    NotStarTok (rest.flatMap (fun p => termToksRest p.1 p.2) ++ constToks c) := by
  cases rest with
  | nil =>
    simp only [List.flatMap_nil, List.nil_append]
    unfold constToks
    split
    · exact fun h => absurd h (by decide)
    · split
      · exact fun h => absurd h (by decide)
      · trivial
  | cons q rest =>
    simp only [List.flatMap_cons, List.append_assoc]
    unfold termToksRest
    split
    · exact fun h => absurd h (by decide)
    · split
      · exact fun h => absurd h (by decide)
      · split
        · exact fun h => absurd h (by decide)
        · exact fun h => absurd h (by decide)

theorem Expression.ofInt_def (n : Int) : Expression.ofInt n = ⟨n, []⟩ := rfl

theorem Expression.ofSym_def (s : String) : Expression.ofSym s = ⟨0, [(s, 1)]⟩ := rfl

theorem parseExprLoop_chain :
    ∀ (rest : List (String × Int)) (c : Int) (acc : Expression) (f : Nat),
    (rest.flatMap (fun p => termToksRest p.1 p.2) ++ constToks c).length + 5 ≤ f →
    (∀ p ∈ rest, isSymbolTok p.1.data = true) →
    (∀ p ∈ rest, p.2 ≠ 0) →
    (∀ p ∈ acc.terms, p.2 ≠ 0) →
    (∀ p ∈ acc.terms, ∀ q ∈ rest, strLtB p.1 q.1 = true) →
    rest.Pairwise (fun p q => strLtB p.1 q.1 = true) →
    parseExprLoop f acc (rest.flatMap (fun p => termToksRest p.1 p.2) ++ constToks c)
      = .ok (⟨acc.constant + c, acc.terms ++ rest⟩, []) := by
  intro rest
  induction rest with
  | nil =>
    intro c acc f hf _ _ hnz _ _
    simp only [List.flatMap_nil, List.nil_append] at hf ⊢
    by_cases hc0 : c = 0
    · subst hc0
      rw [show constToks 0 = [] by unfold constToks; simp,
        parseExprLoop_exit f acc [] (by omega) trivial]
      obtain ⟨ac, ats⟩ := acc
      simp
    · by_cases hcpos : 0 < c
      · rw [show constToks c = [['+'], natChars c.toNat] by
          unfold constToks; simp [hcpos]] at hf ⊢
        obtain ⟨f'', rfl⟩ : ∃ g, f = g + 3 := ⟨f - 3, by omega⟩
        rw [show f'' + 3 = (f'' + 2) + 1 from rfl,
          show ([['+'], natChars c.toNat] : List (List Char))
            = ['+'] :: natChars c.toNat :: [] from rfl,
          parseExprLoop_plus (f'' + 2) acc _,
          parseTerm_num f'' c.toNat [] trivial]
        simp only [okBind]
        rw [Expression.ofInt_def, Expression.add_scalar acc _ hnz,
          parseExprLoop_exit (f'' + 2) _ [] (by omega) trivial,
          Int.toNat_of_nonneg (by omega : (0 : Int) ≤ c)]
        obtain ⟨ac, ats⟩ := acc
        simp
      · have hcneg : c < 0 := by omega
        rw [show constToks c = [['-'], natChars c.natAbs] by
          unfold constToks; simp [hcpos, hcneg]] at hf ⊢
        obtain ⟨f'', rfl⟩ : ∃ g, f = g + 3 := ⟨f - 3, by omega⟩
        rw [show f'' + 3 = (f'' + 2) + 1 from rfl,
          show ([['-'], natChars c.natAbs] : List (List Char))
            = ['-'] :: natChars c.natAbs :: [] from rfl,
          parseExprLoop_minus (f'' + 2) acc _,
          parseTerm_num f'' c.natAbs [] trivial]
        simp only [okBind]
        rw [Expression.ofInt_def, Expression.sub_scalar acc _ hnz,
          parseExprLoop_exit (f'' + 2) _ [] (by omega) trivial,
          show ((c.natAbs : Nat) : Int) = -c by omega]
        obtain ⟨ac, ats⟩ := acc
        simp
  | cons q rest ih =>
    intro c acc f hf hsym hnz haccnz hacclt hsorted
    obtain ⟨s, k⟩ := q
    have hs : isSymbolTok s.data = true := hsym (s, k) (by simp)
    have hk : k ≠ 0 := hnz (s, k) (by simp)
    have hsym2 : ∀ p ∈ rest, isSymbolTok p.1.data = true :=
      fun p hp => hsym p (List.mem_cons_of_mem _ hp)
    have hnz2 : ∀ p ∈ rest, p.2 ≠ 0 := fun p hp => hnz p (List.mem_cons_of_mem _ hp)
    have hsorted2 : rest.Pairwise (fun p q => strLtB p.1 q.1 = true) :=
      (List.pairwise_cons.mp hsorted).2
    have hheadlt : ∀ q ∈ rest, strLtB s q.1 = true :=
      fun q hq => (List.pairwise_cons.mp hsorted).1 q hq
    have hacclt2 : ∀ p ∈ acc.terms, strLtB p.1 s = true :=
      fun p hp => hacclt p hp (s, k) (by simp)
    have hnotstar := chainToks_notStar rest c
    have hnzappend : ∀ (j : Int), j ≠ 0 →
        ∀ p ∈ acc.terms ++ [(s, j)], p.2 ≠ 0 := by
      intro j hj p hp
      rcases List.mem_append.mp hp with hp | hp
      · exact haccnz p hp
      · rcases List.mem_singleton.mp hp with rfl
        exact hj
    have hltappend : ∀ (j : Int), ∀ p ∈ acc.terms ++ [(s, j)], ∀ q ∈ rest,
        strLtB p.1 q.1 = true := by
      intro j p hp q hq
      rcases List.mem_append.mp hp with hp | hp
      · exact hacclt p hp q (List.mem_cons_of_mem _ hq)
      · rcases List.mem_singleton.mp hp with rfl
        exact hheadlt q hq
    have hflat : ((s, k) :: rest).flatMap (fun p => termToksRest p.1 p.2) ++ constToks c
        = termToksRest s k ++ (rest.flatMap (fun p => termToksRest p.1 p.2) ++
          constToks c) := by
      rw [List.flatMap_cons, List.append_assoc]
    rw [hflat] at hf ⊢
    rw [List.length_append] at hf
    have hlen2 : 2 ≤ (termToksRest s k).length := by
      unfold termToksRest
      split
      · simp
      · split
        · simp
        · split <;> simp
    have hlen4 : (termToksRest s k).length ≤ 4 := by
      unfold termToksRest
      split
      · simp
      · split
        · simp
        · split <;> simp
    by_cases hk1 : k = 1
    · subst hk1
      rw [termToksRest_eq_one] at hf ⊢
      obtain ⟨f'', rfl⟩ : ∃ g, f = g + 3 := ⟨f - 3, by omega⟩
      rw [show f'' + 3 = (f'' + 2) + 1 from rfl,
        show ([['+'], s.data] : List (List Char)) ++
          (rest.flatMap (fun p => termToksRest p.1 p.2) ++ constToks c)
          = ['+'] :: (s.data :: (rest.flatMap (fun p => termToksRest p.1 p.2) ++
            constToks c)) from rfl,
        parseExprLoop_plus (f'' + 2) acc _,
        parseTerm_sym f'' s _ hs hnotstar]
      simp only [okBind]
      rw [Expression.ofSym_def, Expression.add_singleton acc s 1 one_ne_zero haccnz hacclt2,
        ih c ⟨acc.constant, acc.terms ++ [(s, 1)]⟩ (f'' + 2)
          (by simp only [List.length_cons] at hf; omega)
          hsym2 hnz2 (hnzappend 1 one_ne_zero) (hltappend 1) hsorted2]
      simp
    · by_cases hkm1 : k = -1
      · subst hkm1
        rw [termToksRest_eq_negone] at hf ⊢
        obtain ⟨f'', rfl⟩ : ∃ g, f = g + 3 := ⟨f - 3, by omega⟩
        rw [show f'' + 3 = (f'' + 2) + 1 from rfl,
          show ([['-'], s.data] : List (List Char)) ++
            (rest.flatMap (fun p => termToksRest p.1 p.2) ++ constToks c)
            = ['-'] :: (s.data :: (rest.flatMap (fun p => termToksRest p.1 p.2) ++
              constToks c)) from rfl,
          parseExprLoop_minus (f'' + 2) acc _,
          parseTerm_sym f'' s _ hs hnotstar]
        simp only [okBind]
        rw [Expression.ofSym_def, Expression.sub_singleton acc s 1 one_ne_zero haccnz hacclt2,
          show (-1 : Int) = -1 from rfl,
          ih c ⟨acc.constant, acc.terms ++ [(s, -1)]⟩ (f'' + 2)
            (by simp only [List.length_cons] at hf; omega)
            hsym2 hnz2 (hnzappend (-1) (by omega)) (hltappend (-1)) hsorted2]
        simp
      · by_cases hkneg : k < 0
        · rw [termToksRest_eq_neg s k hk1 hkm1 hkneg] at hf ⊢
          obtain ⟨f'', rfl⟩ : ∃ g, f = g + 5 := ⟨f - 5, by omega⟩
          rw [show f'' + 5 = (f'' + 4) + 1 from rfl,
            show ([['-'], natChars k.natAbs, ['*'], s.data] : List (List Char)) ++
              (rest.flatMap (fun p => termToksRest p.1 p.2) ++ constToks c)
              = ['-'] :: (natChars k.natAbs :: ['*'] :: s.data ::
                (rest.flatMap (fun p => termToksRest p.1 p.2) ++ constToks c)) from rfl,
            parseExprLoop_minus (f'' + 4) acc _,
            parseTerm_mul f'' k.natAbs s _ (by omega) hs hnotstar]
          simp only [okBind]
          rw [Expression.sub_singleton acc s (k.natAbs : Int) (by omega) haccnz hacclt2,
            show -((k.natAbs : Nat) : Int) = k by omega,
            ih c ⟨acc.constant, acc.terms ++ [(s, k)]⟩ (f'' + 4)
              (by simp only [List.length_cons] at hf; omega)
              hsym2 hnz2 (hnzappend k hk) (hltappend k) hsorted2]
          simp
        · rw [termToksRest_eq_pos s k hk1 hkm1 hkneg] at hf ⊢
          obtain ⟨f'', rfl⟩ : ∃ g, f = g + 5 := ⟨f - 5, by omega⟩
          rw [show f'' + 5 = (f'' + 4) + 1 from rfl,
            show ([['+'], natChars k.toNat, ['*'], s.data] : List (List Char)) ++
              (rest.flatMap (fun p => termToksRest p.1 p.2) ++ constToks c)
              = ['+'] :: (natChars k.toNat :: ['*'] :: s.data ::
                (rest.flatMap (fun p => termToksRest p.1 p.2) ++ constToks c)) from rfl,
            parseExprLoop_plus (f'' + 4) acc _,
            parseTerm_mul f'' k.toNat s _ (by omega) hs hnotstar]
          simp only [okBind]
          rw [Expression.add_singleton acc s (k.toNat : Int) (by omega) haccnz hacclt2,
            show ((k.toNat : Nat) : Int) = k by omega,
            ih c ⟨acc.constant, acc.terms ++ [(s, k)]⟩ (f'' + 4)
              (by simp only [List.length_cons] at hf; omega)
              hsym2 hnz2 (hnzappend k hk) (hltappend k) hsorted2]
          simp

theorem parseExprFn_step (f : Nat) (ts : List (List Char)) :
    parseExprFn (f + 1) ts = parseTermFn f ts >>= fun p => parseExprLoop f p.1 p.2 := rfl

theorem parseFactor_minus (f : Nat) (ts : List (List Char)) :
    parseFactorFn (f + 1) (['-'] :: ts)
      = parseFactorFn f ts >>= fun p => .ok (.expr (zeroSub p.1), p.2) := rfl

theorem parseTerm_negnum (f : Nat) (n : Nat) (ts : List (List Char))
    (hts : NotStarTok ts) :
    parseTermFn (f + 3) (['-'] :: natChars n :: ts) = .ok (⟨-(n : Int), []⟩, ts) := by
  rw [show f + 3 = (f + 2) + 1 from rfl, parseTermFn_step, parseFactor_minus (f + 1),
    parseFactor_num f n ts, okBind,
    show zeroSub (PyVal.int (n : Int)) = (⟨0 - (n : Int), []⟩ : Expression) from rfl]
  simp only [okBind]
  rw [parseTermLoop_exit (f + 1) _ ts hts, okBind]
  simp [pyValToExpression]

theorem parseTerm_negsym (f : Nat) (s : String) (ts : List (List Char))
    (hs : isSymbolTok s.data = true) (hts : NotStarTok ts) :
    parseTermFn (f + 3) (['-'] :: s.data :: ts) = .ok (⟨0, [(s, -1)]⟩, ts) := by
  rw [show f + 3 = (f + 2) + 1 from rfl, parseTermFn_step, parseFactor_minus (f + 1),
    parseFactor_sym f s ts hs, okBind]
  have hz : zeroSub (.expr (Expression.ofSym s)) = (⟨0, [(s, -1)]⟩ : Expression) := by
    show Expression.sub ⟨0, []⟩ ⟨0, [(s, 1)]⟩ = _
    unfold Expression.sub
    rw [show negTerms [(s, 1)] = [(s, -1)] from rfl,
      show mergeTerms ([] : List (String × Int)) [(s, -1)]
        = cleanupTerms (addTermRaw [] s (-1)) from rfl]
    simp [addTermRaw, cleanupTerms]
  simp only [okBind]
  rw [hz, parseTermLoop_exit (f + 1) _ ts hts, okBind]
  rfl

theorem termToksLead_ne_nil (s : String) (k : Int) : termToksLead s k ≠ [] := by
  unfold termToksLead
  split
  · simp
  · split
    · simp
    · split <;> simp

theorem exprToks_ne_nil (e : Expression) : exprToks e ≠ [] := by
  rcases ht : e.terms with _ | ⟨⟨s, k⟩, rest⟩
  · unfold exprToks
    rw [ht]
    show (if e.constant < 0 then [['-'], natChars e.constant.natAbs]
      else [natChars e.constant.toNat]) ≠ []
    split <;> simp
  · unfold exprToks
    rw [ht]
    show termToksLead s k ++
      rest.flatMap (fun p => termToksRest p.1 p.2) ++ constToks e.constant ≠ []
    intro hcontra
    exact termToksLead_ne_nil s k (List.append_eq_nil.mp
      (List.append_eq_nil.mp hcontra).1).1

theorem parseExprFn_exprToks (e : Expression) (f : Nat)
    (hf : (exprToks e).length + 9 ≤ f)
    (hwf : e.WF)
    (hsym : ∀ q ∈ e.terms, isSymbolTok q.1.data = true)
    (hlead : ∀ s k rest, e.terms = (s, k) :: rest → -1 ≤ k) :
    parseExprFn f (exprToks e) = .ok (e, []) := by
  obtain ⟨hsorted, hnz⟩ := hwf
  obtain ⟨ec, ets⟩ := e
  simp only at hsorted hnz hsym hlead ⊢
  rcases ets with _ | ⟨⟨s, k⟩, rest⟩
  · unfold exprToks at hf ⊢
    simp only at hf ⊢
    by_cases hc : ec < 0
    · simp only [hc, if_true] at hf ⊢
      obtain ⟨f', rfl⟩ : ∃ g, f = g + 4 := ⟨f - 4, by omega⟩
      rw [show f' + 4 = (f' + 3) + 1 from rfl,
        show ([['-'], natChars ec.natAbs] : List (List Char))
          = ['-'] :: natChars ec.natAbs :: [] from rfl,
        parseExprFn_step, parseTerm_negnum f' ec.natAbs [] trivial]
      simp only [okBind]
      rw [parseExprLoop_exit (f' + 3) _ [] (by omega) trivial,
        show -((ec.natAbs : Nat) : Int) = ec by omega]
    · simp only [hc, if_false] at hf ⊢
      obtain ⟨f', rfl⟩ : ∃ g, f = g + 3 := ⟨f - 3, by omega⟩
      rw [show f' + 3 = (f' + 2) + 1 from rfl,
        show ([natChars ec.toNat] : List (List Char)) = natChars ec.toNat :: [] from rfl,
        parseExprFn_step, parseTerm_num f' ec.toNat [] trivial]
      simp only [okBind]
      rw [Expression.ofInt_def, parseExprLoop_exit (f' + 2) _ [] (by omega) trivial,
        Int.toNat_of_nonneg (by omega : (0 : Int) ≤ ec)]
  · have hk : k ≠ 0 := hnz (s, k) (by simp)
    have hkm : -1 ≤ k := hlead s k rest rfl
    have hs : isSymbolTok s.data = true := hsym (s, k) (by simp)
    have hsym2 : ∀ p ∈ rest, isSymbolTok p.1.data = true :=
      fun p hp => hsym p (List.mem_cons_of_mem _ hp)
    have hnz2 : ∀ p ∈ rest, p.2 ≠ 0 := fun p hp => hnz p (List.mem_cons_of_mem _ hp)
    have hsorted2 := (List.pairwise_cons.mp hsorted).2
    have hheadlt := (List.pairwise_cons.mp hsorted).1
    have hnotstar := chainToks_notStar rest ec
    have hacc : ∀ p ∈ [(s, k)], p.2 ≠ 0 := by
      intro p hp
      rcases List.mem_singleton.mp hp with rfl
      exact hk
    have haccl : ∀ p ∈ [(s, k)], ∀ q ∈ rest, strLtB p.1 q.1 = true := by
      intro p hp q hq
      rcases List.mem_singleton.mp hp with rfl
      exact hheadlt q hq
    unfold exprToks at hf ⊢
    simp only at hf ⊢
    unfold termToksLead at hf ⊢
    by_cases hk1 : k = 1
    · subst hk1
      simp only [if_true] at hf ⊢
      obtain ⟨f', rfl⟩ : ∃ g, f = g + 3 := ⟨f - 3, by omega⟩
      rw [show f' + 3 = (f' + 2) + 1 from rfl, parseExprFn_step,
        show ([s.data] : List (List Char)) ++
          rest.flatMap (fun p => termToksRest p.1 p.2) ++ constToks ec
          = s.data :: (rest.flatMap (fun p => termToksRest p.1 p.2) ++ constToks ec)
          from rfl,
        parseTerm_sym f' s _ hs hnotstar]
      simp only [okBind]
      rw [Expression.ofSym_def,
        parseExprLoop_chain rest ec ⟨0, [(s, 1)]⟩ (f' + 2)
          (by simp only [List.length_append, List.length_cons] at hf ⊢; omega)
          hsym2 hnz2 hacc haccl hsorted2]
      simp
    · by_cases hkm1 : k = -1
      · subst hkm1
        simp only [if_false, if_true, show ((-1 : Int) = 1) = False by simp] at hf ⊢
        obtain ⟨f', rfl⟩ : ∃ g, f = g + 4 := ⟨f - 4, by omega⟩
        rw [show f' + 4 = (f' + 3) + 1 from rfl, parseExprFn_step,
          show ([['-'], s.data] : List (List Char)) ++
            rest.flatMap (fun p => termToksRest p.1 p.2) ++ constToks ec
            = ['-'] :: (s.data :: (rest.flatMap (fun p => termToksRest p.1 p.2) ++
              constToks ec)) from rfl,
          parseTerm_negsym f' s _ hs hnotstar]
        simp only [okBind]
        rw [parseExprLoop_chain rest ec ⟨0, [(s, -1)]⟩ (f' + 3)
            (by simp only [List.length_append, List.length_cons] at hf ⊢; omega)
            hsym2 hnz2 hacc haccl hsorted2]
        simp
      · have hkpos : 0 < k := by omega
        have hknlt : ¬ k < 0 := by omega
        simp only [hk1, hkm1, hknlt, if_false] at hf ⊢
        obtain ⟨f', rfl⟩ : ∃ g, f = g + 5 := ⟨f - 5, by omega⟩
        rw [show f' + 5 = (f' + 4) + 1 from rfl, parseExprFn_step,
          show ([natChars k.toNat, ['*'], s.data] : List (List Char)) ++
            rest.flatMap (fun p => termToksRest p.1 p.2) ++ constToks ec
            = natChars k.toNat :: ['*'] :: s.data ::
              (rest.flatMap (fun p => termToksRest p.1 p.2) ++ constToks ec) from rfl,
          parseTerm_mul f' k.toNat s _ (by omega) hs hnotstar]
        simp only [okBind]
        rw [show ((k.toNat : Nat) : Int) = k by omega,
          parseExprLoop_chain rest ec ⟨0, [(s, k)]⟩ (f' + 4)
            (by simp only [List.length_append, List.length_cons] at hf ⊢; omega)
            hsym2 hnz2 hacc haccl hsorted2]
        simp

/-! ## Claim C3 — Expression round-trip -/

/-- A symbol name accepted by the parser grammar `[a-zA-Z_.][a-zA-Z0-9_.]*`. -/
def WfSym (s : String) : Prop := isSymbolTok s.data = true

instance : DecidablePred WfSym := fun s => by unfold WfSym; infer_instance

/-- The coefficient of the lexicographically first symbol is `1`, `-1` or
positive (not `≤ -2`). -/
def LeadCoeffOk (e : Expression) : Prop :=
  match e.terms with
  | [] => True
  | (_, k) :: _ => -1 ≤ k

instance : DecidablePred LeadCoeffOk := fun e => by
  unfold LeadCoeffOk
  rcases e.terms with _ | ⟨⟨s, k⟩, rest⟩ <;> infer_instance

/-- Claim C3 (amended): for every canonical Expression whose symbols are
well-formed names and whose lexicographically first symbol does not carry a
coefficient `≤ -2`, parsing the string rendering yields the expression back:
`Expression.parse(str(e)) = e`. -/
theorem c3_expression_roundtrip_amended (e : Expression) (hwf : e.WF)
    (hsym : ∀ s ∈ e.symbols, WfSym s) (hlead : LeadCoeffOk e) :
    parseExpression e.toStr = .ok e := by
  have hsym2 : ∀ q ∈ e.terms, isSymbolTok q.1.data = true := by
    intro q hq
    exact hsym q.1 (List.mem_map_of_mem _ hq)
  have hnz : ∀ p ∈ e.terms, p.2 ≠ 0 := hwf.2
  have hlead2 : ∀ s k rest, e.terms = (s, k) :: rest → -1 ≤ k := by
    intro s k rest ht
    unfold LeadCoeffOk at hlead
    rw [ht] at hlead
    exact hlead
  unfold parseExpression
  rw [tokens_strE e hsym2 hnz]
  have hne : ¬ ((exprToks e).isEmpty = true) := by
    simp only [List.isEmpty_iff]
    exact exprToks_ne_nil e
  rw [if_neg hne,
    parseExprFn_exprToks e (exprFuel (exprToks e)) (by unfold exprFuel; omega)
      hwf hsym2 hlead2]
  rfl

/-- Claim C3, counterexample: the expression `-2·A` is a canonical
Expression, its rendering is `-2*A`, and `Expression.parse` raises the
non-linear `ValueError` on it instead of returning the expression — the
leading unary minus wraps the integer `2` into an `Expression`, so the
following `* A` multiplies two `Expression`s. -/
theorem c3_expression_roundtrip_counterexample :
    Expression.WF ⟨0, [("A", -2)]⟩ ∧
    Expression.toStr ⟨0, [("A", -2)]⟩ = "-2*A" ∧
    parseExpression (Expression.toStr ⟨0, [("A", -2)]⟩)
      = .error (.valueError "Non-linear error: Cannot multiply two symbols.") := by
  refine ⟨by decide, by decide, rfl⟩

/-- Witness for the amended C3 theorem at the concrete canonical expression
`2·A - B - 5`. -/
theorem c3_expression_roundtrip_witness :
    parseExpression (Expression.toStr ⟨-5, [("A", 2), ("B", -1)]⟩)
      = .ok ⟨-5, [("A", 2), ("B", -1)]⟩ :=
  c3_expression_roundtrip_amended ⟨-5, [("A", 2), ("B", -1)]⟩
    (by decide) (by decide) (by decide)

/-! ## Operand and instruction models — src/src/textparser/models.py -/

/-- The x86 general-purpose register enum (32-bit, 16-bit, 8-bit low and
8-bit high rows of `RegisterOperand`). -/
inductive RegisterOperand where
  | EAX | EBX | ECX | EDX | ESI | EDI | EBP | ESP
  | AX | BX | CX | DX | SI | DI | BP | SP
  | AL | BL | CL | DL
  | AH | BH | CH | DH
deriving Repr, DecidableEq

/-- The AT&T spelling carried as each enum member's value. -/
def RegisterOperand.value : RegisterOperand → String
  | .EAX => "%eax" | .EBX => "%ebx" | .ECX => "%ecx" | .EDX => "%edx"
  | .ESI => "%esi" | .EDI => "%edi" | .EBP => "%ebp" | .ESP => "%esp"
  | .AX => "%ax" | .BX => "%bx" | .CX => "%cx" | .DX => "%dx"
  | .SI => "%si" | .DI => "%di" | .BP => "%bp" | .SP => "%sp"
  | .AL => "%al" | .BL => "%bl" | .CL => "%cl" | .DL => "%dl"
  | .AH => "%ah" | .BH => "%bh" | .CH => "%ch" | .DH => "%dh"

/-- The canonical branch conditions of `JumpCondition`. -/
inductive JumpCondition where
  | JE | JL | JG | JB | JA
deriving Repr, DecidableEq

/-- The lowercase mnemonic carried as each condition's value. -/
def JumpCondition.value : JumpCondition → String
  | .JE => "je" | .JL => "jl" | .JG => "jg" | .JB => "jb" | .JA => "ja"

/-- `JumpCondition.from_mnemonic`: resolve a conditional jump mnemonic to its
canonical condition and swap flag, or raise `ValueError`. -/
def JumpCondition.fromMnemonic (mnemonic : String) :
    Except PyErr (JumpCondition × Bool) :=
  let m := pyLower mnemonic
  if m = "je" ∨ m = "jz" then .ok (.JE, false)
  else if m = "jne" ∨ m = "jnz" then .ok (.JE, true)
  else if m = "jl" ∨ m = "jnge" then .ok (.JL, false)
  else if m = "jge" ∨ m = "jnl" then .ok (.JL, true)
  else if m = "jg" ∨ m = "jnle" then .ok (.JG, false)
  else if m = "jle" ∨ m = "jng" then .ok (.JG, true)
  else if m = "jb" ∨ m = "jnae" ∨ m = "jc" then .ok (.JB, false)
  else if m = "jae" ∨ m = "jnb" ∨ m = "jnc" then .ok (.JB, true)
  else if m = "ja" ∨ m = "jnbe" then .ok (.JA, false)
  else if m = "jbe" ∨ m = "jna" then .ok (.JA, true)
  else .error (.valueError ("Unknown or unsupported conditional jump mnemonic: "
    ++ mnemonic))

/-- `MemoryOperand`: optional base and index registers, a scale and a
displacement expression.  The dataclass defaults are `base=None`,
`index=None`, `scale=1` and `displacement=Expression(\"0\")` — note that the
default displacement is the *symbol* `\"0\"`, not the scalar `0`. -/
structure MemoryOperand where
  base : Option RegisterOperand := none
  index : Option RegisterOperand := none
  scale : Nat := 1
  displacement : Expression := Expression.ofSym "0"
deriving Repr, DecidableEq

/-- The typed operand union. -/
inductive Operand where
  | reg (r : RegisterOperand)
  | imm (value : Expression)
  | mem (m : MemoryOperand)
deriving Repr, DecidableEq

/-- `Instruction`: lowercased mnemonic, ordered operands, source line. -/
structure Instruction where
  mnemonic : String
  operands : List Operand := []
  lineNumber : Nat := 0
deriving Repr, DecidableEq

/-- The comparison `self.displacement == 0` in `MemoryOperand.__str__`.
`Expression` defines no `__eq__` (src/src/textparser/expression.py has no
such method), so Python falls back to identity comparison between an
`Expression` object and the int `0`, which is always `False`. -/
def pyEqExpressionInt (_e : Expression) (_n : Int) : Bool := false

/-- `ImmediateOperand.__str__`: `$(<expr>)`. -/
def immStr (value : Expression) : String := "$(" ++ value.toStr ++ ")"

/-- `MemoryOperand.__str__`. -/
def MemoryOperand.str (m : MemoryOperand) : String :=
  let res :=
    if pyEqExpressionInt m.displacement 0 && (m.base.isSome || m.index.isSome)
    then "" else m.displacement.toStr
  if m.base.isSome || m.index.isSome then
    res ++ "(" ++
      (match m.base with
       | some b => b.value
       | none => "") ++
      (match m.index with
       | some i =>
         "," ++ i.value ++ (if m.scale ≠ 1 then "," ++ (⟨natChars m.scale⟩ : String)
           else "")
       | none => "") ++ ")"
  else res

/-- `Operand` stringification (register values, `$(expr)`, memory form). -/
def Operand.str : Operand → String
  | .reg r => r.value
  | .imm v => immStr v
  | .mem m => m.str

/-- `Instruction.__str__`: `mnemonic op1, op2, …`, bare mnemonic when there
are no operands. -/
def Instruction.str (i : Instruction) : String :=
  let ops := String.intercalate ", " (i.operands.map Operand.str)
  if ops = "" then i.mnemonic else i.mnemonic ++ " " ++ ops

/-- Claim C5 (code bug): `MemoryOperand.__str__` never suppresses a zero
displacement.  The guard `self.displacement == 0` compares an `Expression`
with an `int`; `Expression` defines no `__eq__`, so the comparison is always
`False` and the branch that would emit `(%esp)` is dead: the scalar-zero
displacement `0(%esp)` is printed instead of the documented `(%esp)`. -/
theorem c5_zero_displacement_not_suppressed :
    MemoryOperand.str ⟨some .ESP, none, 1, Expression.ofInt 0⟩ = "0(%esp)" ∧
    MemoryOperand.str ⟨some .ESP, none, 1, Expression.ofInt 0⟩ ≠ "(%esp)" ∧
    pyEqExpressionInt (Expression.ofInt 0) 0 = false :=
  ⟨rfl, by decide, rfl⟩

/-! ## Text parser — src/src/textparser/parser.py -/

/-- Python `str.splitlines` (newline-separated; a trailing newline does not
produce a final empty line). -/
def splitLinesChars : List Char → List Char → List (List Char)
  | [], buf => if buf.isEmpty then [] else [buf]
  | c :: cs, buf =>
    if c = '\n' then buf :: splitLinesChars cs []
    else splitLinesChars cs (buf ++ [c])

/-- `iter_source_lines`: 1-indexed lines. -/
def iterSourceLines (source : String) : List (Nat × List Char) :=
  (splitLinesChars source.data []).enum.map fun p => (p.1 + 1, p.2)

/-- The prefix of a line before the first occurrence of a pattern
(`line.split(pat, 1)[0]`). -/
def cutBefore (pat : List Char) : List Char → List Char
  | [] => []
  | c :: rest => if pat.isPrefixOf (c :: rest) then [] else c :: cutBefore pat rest

/-- Python `str.strip` (ASCII whitespace). -/
def pyStrip (l : List Char) : List Char :=
  ((l.dropWhile isWsChar).reverse.dropWhile isWsChar).reverse

/-- One line of `strip_comments`: cut at `#`, then at `//`, then strip. -/
def stripCommentsLine (l : List Char) : List Char :=
  pyStrip (cutBefore ['/', '/'] (cutBefore ['#'] l))

/-- `strip_comments` over the numbered stream (empty results dropped). -/
def stripCommentsStream (lines : List (Nat × List Char)) : List (Nat × List Char) :=
  (lines.map fun p => (p.1, stripCommentsLine p.2)).filter fun p => ¬ p.2.isEmpty

/-- `filter_text_section`: keep lines strictly between a `.text` opener and
the next section marker. -/
def filterTextSection : Bool → List (Nat × List Char) → List (Nat × List Char)
  | _, [] => []
  | inText, (ln, line) :: rest =>
    if (".section .text".data).isPrefixOf line ∨ line = ".text".data then
      filterTextSection true rest
    else if (".section".data).isPrefixOf line ∨ line = ".data".data ∨
        line = ".bss".data then
      filterTextSection false rest
    else if inText then (ln, line) :: filterTextSection inText rest
    else filterTextSection inText rest

/-- A parsed element of the text section: a label or an instruction. -/
inductive ElementT where
  | label (name : String)
  | instr (i : Instruction)
deriving Repr, DecidableEq

/-- Python `line.split(maxsplit=1)` on a stripped nonempty line: first
whitespace-delimited token and the stripped remainder. -/
def splitFirstWs (l : List Char) : List Char × List Char :=
  let tok := l.takeWhile fun c => ¬ isWsChar c
  let rest := (l.dropWhile fun c => ¬ isWsChar c).dropWhile isWsChar
  (tok, rest)

/-- `split_operands_source`: split on top-level commas (parenthesis depth
0), strip each piece, drop empty pieces. -/
def splitOperandsSource (text : List Char) : List (List Char) :=
  (go text [] 0).filter fun p => ¬ p.isEmpty
where
  go : List Char → List Char → Int → List (List Char)
    | [], current, _ => if current.isEmpty then [] else [pyStrip current]
    | c :: cs, current, depth =>
      if c = ',' ∧ depth = 0 then pyStrip current :: go cs [] depth
      else
        let depth := if c = '(' then depth + 1 else if c = ')' then depth - 1
          else depth
        go cs (current ++ [c]) depth

/-- `RegisterOperand(text)`: exact match on the AT&T spelling. -/
def regFromStr (s : String) : Option RegisterOperand :=
  if s = "%eax" then some .EAX else if s = "%ebx" then some .EBX
  else if s = "%ecx" then some .ECX else if s = "%edx" then some .EDX
  else if s = "%esi" then some .ESI else if s = "%edi" then some .EDI
  else if s = "%ebp" then some .EBP else if s = "%esp" then some .ESP
  else if s = "%ax" then some .AX else if s = "%bx" then some .BX
  else if s = "%cx" then some .CX else if s = "%dx" then some .DX
  else if s = "%si" then some .SI else if s = "%di" then some .DI
  else if s = "%bp" then some .BP else if s = "%sp" then some .SP
  else if s = "%al" then some .AL else if s = "%bl" then some .BL
  else if s = "%cl" then some .CL else if s = "%dl" then some .DL
  else if s = "%ah" then some .AH else if s = "%bh" then some .BH
  else if s = "%ch" then some .CH else if s = "%dh" then some .DH
  else none

/-- `get_reg` inside `parse_operand`: empty means absent, unknown raises
`ValueError`. -/
def getReg (s : List Char) : Except PyErr (Option RegisterOperand) :=
  if s.isEmpty then .ok none
  else
    match regFromStr (pyLower ⟨s⟩) with
    | some r => .ok (some r)
    | none => .error (.valueError ("not a valid RegisterOperand: " ++ (⟨s⟩ : String)))

/-- Index of the first `(` in a character list. -/
def firstParenIdx : List Char → Option Nat
  | [] => none
  | c :: rest =>
    if c = '(' then some 0
    else (firstParenIdx rest).map (· + 1)

/-- Python `paren_content.split(",")` followed by `strip` on each piece
(plain split: depth-insensitive, keeps empty pieces, `""` gives `[""]`). -/
def splitCommasPlain (l : List Char) : List (List Char) :=
  go l []
where
  go : List Char → List Char → List (List Char)
    | [], current => [pyStrip current]
    | c :: cs, current =>
      if c = ',' then pyStrip current :: go cs []
      else go cs (current ++ [c])

/-- `parse_operand` — register, `$`-immediate, or
`displacement(base,index,scale)` memory operand.  The anchored lazy regex
`^(.*?)(\((.*)\))?$` matches the optional parenthesised group exactly when
the text ends in `)` and contains a `(` (first `(`, greedy inner). -/
def parseOperand (raw : List Char) : Except PyErr Operand := do
  let text := pyStrip raw
  match regFromStr (pyLower ⟨text⟩) with
  | some r => .ok (.reg r)
  | none =>
    if text.head? = some '$' then do
      let e ← parseExpression ⟨text.drop 1⟩
      .ok (.imm e)
    else
      match firstParenIdx text, text.getLast? with
      | some i, some cl =>
        if cl = ')' then do
          let dispStr := text.take i
          let parenContent := (text.drop (i + 1)).dropLast
          let displacement ←
            if ¬ dispStr.isEmpty ∧ ¬ (pyStrip dispStr).isEmpty then
              parseExpression ⟨dispStr⟩
            else .ok (Expression.ofInt 0)
          let subParts := splitCommasPlain parenContent
          if subParts.length > 3 then
            .error (.valueError "Invalid memory operand format")
          else do
            let base ← getReg (subParts.getD 0 [])
            let index ← if subParts.length ≥ 2 then getReg (subParts.getD 1 [])
              else .ok none
            let scale ←
              if subParts.length = 3 then
                let sp := subParts.getD 2 []
                if sp.isEmpty then .ok 1
                else if isDigitTok sp then
                  let v := digitsVal sp
                  if v = 1 ∨ v = 2 ∨ v = 4 ∨ v = 8 then .ok v
                  else .error (.valueError "Invalid scale factor")
                else .error (.valueError "Invalid scale factor")
              else .ok 1
            .ok (.mem ⟨base, index, scale, displacement⟩)
        else do
          let e ←
            if ¬ text.isEmpty ∧ ¬ (pyStrip text).isEmpty then
              parseExpression ⟨text⟩
            else .ok (Expression.ofInt 0)
          .ok (.mem ⟨none, none, 1, e⟩)
      | _, _ => do
        let e ←
          if ¬ text.isEmpty ∧ ¬ (pyStrip text).isEmpty then
            parseExpression ⟨text⟩
          else .ok (Expression.ofInt 0)
        .ok (.mem ⟨none, none, 1, e⟩)

/-- Left-to-right effectful map over `Except` (the Python loops advance in
order and stop at the first raised exception). -/
def mapME {α β : Type} (f : α → Except PyErr β) : List α → Except PyErr (List β)
  | [] => .ok []
  | x :: xs => do
    let y ← f x
    let ys ← mapME f xs
    .ok (y :: ys)

/-- `is_terminator`: a `j…`/`b…` mnemonic or a return-like mnemonic ends a
block. -/
def isTerminator (mnemonic : String) : Bool :=
  let m := pyLower mnemonic
  ['j'].isPrefixOf m.data || ['b'].isPrefixOf m.data ||
    (m = "ret" || m = "iret" || m = "syscall")

/-- `is_unconditional`. -/
def isUnconditional (mnemonic : String) : Bool :=
  let m := pyLower mnemonic
  m = "jmp" || m = "b" || m = "ret" || m = "iret" || m = "syscall"

/-- `is_return`. -/
def isReturn (mnemonic : String) : Bool :=
  let m := pyLower mnemonic
  m = "ret" || m = "iret" || m = "syscall"

/-- `parse_elements` on one stripped line: label, skipped directive, or
instruction with lowercased mnemonic. -/
def parseElementLine (ln : Nat) (line : List Char) : Except PyErr (Option ElementT) :=
  if line.getLast? = some ':' then .ok (some (.label ⟨line.dropLast⟩))
  else
    let (tok, rest) := splitFirstWs line
    let mnemonic := pyLower ⟨tok⟩
    if mnemonic.data.head? = some '.' then .ok none
    else do
      let rawOps := if rest.isEmpty then [] else splitOperandsSource rest
      let ops ← mapME parseOperand rawOps
      .ok (some (.instr ⟨mnemonic, ops, ln⟩))

/-- `parse_elements` over the filtered stream. -/
def parseElements (lines : List (Nat × List Char)) : Except PyErr (List ElementT) :=
  (mapME (fun p => parseElementLine p.1 p.2) lines).map fun l => l.filterMap id

/-- Typed successor edge; blocks are held in an arena (the list built by
`build_blocks`) and edges are indices into it, mirroring the object
references of the Python model. -/
inductive Succ where
  | direct (idx : Nat)
  | cond (t : Nat) (f : Nat) (c : JumpCondition)
deriving Repr, DecidableEq

/-- A basic block of the arena. -/
structure BasicBlockP where
  name : String
  instructions : List Instruction := []
  successor : Option Succ := none
deriving Repr, DecidableEq

/-- One step of `build_blocks`: a label opens a fresh block, an instruction
opens an anonymous `loc_<line>` block when none is open and closes the block
when it is a terminator. -/
def buildStep (st : List BasicBlockP × Option BasicBlockP) (e : ElementT) :
    List BasicBlockP × Option BasicBlockP :=
  match e with
  | .label name => (st.1 ++ st.2.toList, some ⟨name, [], none⟩)
  | .instr i =>
    let cur := match st.2 with
      | some b => b
      | none => ⟨"loc_" ++ (⟨natChars i.lineNumber⟩ : String), [], none⟩
    let cur := { cur with instructions := cur.instructions ++ [i] }
    if isTerminator i.mnemonic then (st.1 ++ [cur], none)
    else (st.1, some cur)

/-- `build_blocks`. -/
def buildBlocks (elements : List ElementT) : List BasicBlockP :=
  let st := elements.foldl buildStep ([], none)
  st.1 ++ st.2.toList

/-- Last index of a block with the given name (`{b.name: b for b in blocks}`
lets later blocks shadow earlier ones). -/
def findLastIdx (blocks : List BasicBlockP) (name : String) : Option Nat :=
  go blocks.enum none
where
  go : List (Nat × BasicBlockP) → Option Nat → Option Nat
    | [], acc => acc
    | (i, b) :: rest, acc => go rest (if b.name = name then some i else acc)

/-- `resolve_target_block`: the jump operand must be a `MemoryOperand` whose
rendered displacement names a known block. -/
def resolveTargetIdx (blocks : List BasicBlockP) (instr : Instruction) :
    Except PyErr Nat :=
  match instr.operands with
  | [] => .error (.valueError "Unexpected jump instruction with no operands")
  | op :: _ =>
    match op with
    | .mem m =>
      match findLastIdx blocks m.displacement.toStr with
      | some i => .ok i
      | none => .error (.lookupError "Failed to find target block")
    | _ => .error (.typeError "Unexpected operand type for jump instruction")

/-- `link_blocks` for the block at index `i` (each loop iteration only
rewrites block `i`'s fields, so the link pass is a per-index map). -/
def linkOne (blocks : List BasicBlockP) (i : Nat) (b : BasicBlockP) :
    Except PyErr BasicBlockP :=
  let next : Option Nat := if i + 1 < blocks.length then some (i + 1) else none
  if b.instructions.isEmpty then
    .ok { b with successor := next.map Succ.direct }
  else
    match b.instructions.getLast? with
    | none => .ok b
    | some last =>
      let mnem := pyLower last.mnemonic
      if ¬ (isTerminator mnem = true) then
        .ok { b with successor := next.map Succ.direct }
      else if isReturn mnem then .ok b
      else do
        let target ← resolveTargetIdx blocks last
        match next with
        | some n =>
          if ¬ (isUnconditional mnem = true) then do
            let cs ← JumpCondition.fromMnemonic mnem
            .ok { b with
              successor := some (if cs.2 then .cond n target cs.1
                else .cond target n cs.1),
              instructions := b.instructions.dropLast }
          else if ¬ (isReturn mnem = true) then
            .ok { b with
              successor := some (.direct target),
              instructions := b.instructions.dropLast }
          else .ok b
        | none =>
          if isUnconditional mnem ∧ ¬ (isReturn mnem = true) then
            .ok { b with
              successor := some (.direct target),
              instructions := b.instructions.dropLast }
          else .ok b

/-- `link_blocks` over the arena. -/
def linkBlocks (blocks : List BasicBlockP) : Except PyErr (List BasicBlockP) :=
  mapME (fun p => linkOne blocks p.1 p.2) blocks.enum

/-- The block list produced by the text parser after CFG linking
(`parse_cfg` up to and including `link_blocks`; an element-less source
yields no blocks). -/
def parseLinkedBlocks (source : String) : Except PyErr (List BasicBlockP) := do
  let lines := filterTextSection false (stripCommentsStream (iterSourceLines source))
  let elements ← parseElements lines
  let blocks := buildBlocks elements
  if blocks.isEmpty then .ok []
  else linkBlocks blocks

/-- A function: name and entry block index. -/
structure FunctionP where
  name : String
  entry : Nat
deriving Repr, DecidableEq

/-- The BFS of `extract_functions` (fueled; the fuel used below suffices for
every arena the concrete theorems evaluate).  The source's
`if curr.name in visited` test compares a string against a set of integer
ids and is always false, so it is omitted. -/
def extractBfs (blocks : List BasicBlockP) : Nat → List Nat → List Nat → List Nat
  | 0, _, visited => visited
  | _ + 1, [], visited => visited
  | f + 1, i :: queue, visited =>
    let visited := if i ∈ visited then visited else visited ++ [i]
    match (blocks.getD i ⟨"", [], none⟩).successor with
    | none => extractBfs blocks f queue visited
    | some (.direct j) =>
      extractBfs blocks f (queue ++ if j ∈ visited then [] else [j]) visited
    | some (.cond t fb _) =>
      let queue := queue ++ if t ∈ visited then [] else [t]
      let queue := queue ++ if fb ∈ visited then [] else [fb]
      extractBfs blocks f queue visited

/-- `extract_functions`: connected components in source order. -/
def extractFunctions (blocks : List BasicBlockP) : List FunctionP :=
  go blocks.enum []
where
  go : List (Nat × BasicBlockP) → List Nat → List FunctionP
    | [], _ => []
    | (i, b) :: rest, visited =>
      if i ∈ visited then go rest visited
      else
        let visited := extractBfs blocks
          ((blocks.length + 2) * (blocks.length + 2)) [i] visited
        ⟨b.name, i⟩ :: go rest visited

/-- `parse_cfg`: the full text parse returning functions plus the shared
arena. -/
def parseCfg (source : String) : Except PyErr (List FunctionP × List BasicBlockP) := do
  let blocks ← parseLinkedBlocks source
  if blocks.isEmpty then .ok ([], [])
  else .ok (extractFunctions blocks, blocks)

/-! ## Claim C7 — jumps are lowered onto edges -/

theorem singleton_isPrefixOf (c : Char) (l : List Char) :
    [c].isPrefixOf l = true ↔ l.head? = some c := by
  cases l with
  | nil =>
    constructor
    · intro h
      simp [List.isPrefixOf] at h
    · intro h
      simp at h
  | cons d rest =>
    constructor
    · intro h
      have h2 : ((c == d) && List.isPrefixOf ([] : List Char) rest) = true := h
      simp only [Bool.and_eq_true, beq_iff_eq] at h2
      rw [List.head?_cons, h2.1]
    · intro h
      rw [List.head?_cons, Option.some_inj] at h
      show ((c == d) && List.isPrefixOf ([] : List Char) rest) = true
      rw [h]
      simp [List.isPrefixOf]

theorem pyLower_head_j (m : String) (h : ['j'].isPrefixOf m.data = true) :
    ['j'].isPrefixOf (pyLower m).data = true := by
  rw [singleton_isPrefixOf] at h ⊢
  show (List.map lowerChar m.data).head? = some 'j'
  rcases hd : m.data with _ | ⟨c, rest⟩
  · rw [hd] at h; simp at h
  · rw [hd] at h
    simp only [List.head?_cons, Option.some_inj] at h
    subst h
    simp only [List.map_cons, List.head?_cons, Option.some_inj]
    decide

theorem jpre_isTerminator (m : String) (h : ['j'].isPrefixOf m.data = true) :
    isTerminator m = true := by
  unfold isTerminator
  have h2 := pyLower_head_j m h
  simp only [h2, Bool.true_or]

/-- No instruction before the last one of a block is a terminator (the
post-state of `build_blocks`). -/
def NoMidTerm (b : BasicBlockP) : Prop :=
  ∀ k, k + 1 < b.instructions.length →
    ∀ instr, b.instructions.get? k = some instr → isTerminator instr.mnemonic = false

/-- Invariant carried through the `build_blocks` fold: finished blocks have
terminators only in last position, the open block has none at all. -/
def BuildStOk (st : List BasicBlockP × Option BasicBlockP) : Prop :=
  (∀ b ∈ st.1, NoMidTerm b) ∧
  (∀ b, st.2 = some b → ∀ instr ∈ b.instructions, isTerminator instr.mnemonic = false)

theorem noMidTerm_of_all (b : BasicBlockP)
    (h : ∀ instr ∈ b.instructions, isTerminator instr.mnemonic = false) :
    NoMidTerm b := by
  intro k _ instr hk
  exact h instr (List.get?_mem hk)

theorem noMidTerm_snoc (c : BasicBlockP) (i : Instruction)
    (h : ∀ instr ∈ c.instructions, isTerminator instr.mnemonic = false) :
    NoMidTerm { c with instructions := c.instructions ++ [i] } := by
  intro k hk instr hget
  have hk2 : k + 1 < (c.instructions ++ [i]).length := hk
  simp only [List.length_append, List.length_cons, List.length_nil] at hk2
  have hk3 : k < c.instructions.length := by omega
  have hget2 : (c.instructions ++ [i]).get? k = some instr := hget
  rw [List.get?_append hk3] at hget2
  exact h instr (List.get?_mem hget2)

theorem buildStep_instr (done : List BasicBlockP) (cur : Option BasicBlockP)
    (i : Instruction) :
    buildStep (done, cur) (.instr i) =
      (let c := cur.getD ⟨"loc_" ++ (⟨natChars i.lineNumber⟩ : String), [], none⟩
       let c2 := { c with instructions := c.instructions ++ [i] }
       if isTerminator i.mnemonic then (done ++ [c2], none) else (done, some c2)) := by
  cases cur <;> rfl

theorem buildStep_ok (done : List BasicBlockP) (cur : Option BasicBlockP)
    (e : ElementT) (h : BuildStOk (done, cur)) : BuildStOk (buildStep (done, cur) e) := by
  obtain ⟨h1, h2⟩ := h
  cases e with
  | label name =>
    refine ⟨?_, ?_⟩
    · intro b hb
      have hb2 : b ∈ done ++ cur.toList := hb
      rcases List.mem_append.mp hb2 with hb2 | hb2
      · exact h1 b hb2
      · cases cur with
        | none => simp at hb2
        | some c =>
          simp only [Option.toList_some, List.mem_singleton] at hb2
          subst hb2
          exact noMidTerm_of_all _ (h2 _ rfl)
    · intro b hb instr hin
      have hb2 : some (⟨name, [], none⟩ : BasicBlockP) = some b := hb
      injection hb2 with hb2
      subst hb2
      simp at hin
  | instr i =>
    rw [buildStep_instr]
    have hcall : ∀ instr ∈ (cur.getD
        (⟨"loc_" ++ (⟨natChars i.lineNumber⟩ : String), [], none⟩ :
          BasicBlockP)).instructions, isTerminator instr.mnemonic = false := by
      cases cur with
      | none =>
        intro instr hin
        have hin2 : instr ∈ ([] : List Instruction) := hin
        simp at hin2
      | some c =>
        intro instr hin
        exact h2 c rfl instr hin
    generalize cur.getD (⟨"loc_" ++ (⟨natChars i.lineNumber⟩ : String), [], none⟩ :
        BasicBlockP) = c at hcall ⊢
    show BuildStOk (if isTerminator i.mnemonic
      then (done ++ [{ c with instructions := c.instructions ++ [i] }], none)
      else (done, some { c with instructions := c.instructions ++ [i] }))
    by_cases hterm : isTerminator i.mnemonic = true
    · rw [if_pos hterm]
      refine ⟨?_, ?_⟩
      · intro b hb
        rcases List.mem_append.mp hb with hb2 | hb2
        · exact h1 b hb2
        · simp only [List.mem_singleton] at hb2
          subst hb2
          exact noMidTerm_snoc c i hcall
      · intro b hb
        exact Option.noConfusion hb
    · rw [if_neg hterm]
      refine ⟨?_, ?_⟩
      · intro b hb
        exact h1 b hb
      · intro b hb instr hin
        injection hb with hb2
        subst hb2
        have hin2 : instr ∈ c.instructions ++ [i] := hin
        rcases List.mem_append.mp hin2 with hin3 | hin3
        · exact hcall instr hin3
        · simp only [List.mem_singleton] at hin3
          subst hin3
          simp only [Bool.not_eq_true] at hterm
          exact hterm

theorem foldl_buildStep_ok (elements : List ElementT) :
    ∀ st, BuildStOk st → BuildStOk (elements.foldl buildStep st) := by
  induction elements with
  | nil => intro st h; exact h
  | cons e es ih =>
    intro st h
    rw [List.foldl_cons]
    obtain ⟨done, cur⟩ := st
    exact ih _ (buildStep_ok done cur e h)

theorem buildBlocks_noMidTerm (elements : List ElementT) :
    ∀ b ∈ buildBlocks elements, NoMidTerm b := by
  have hstart : BuildStOk (([] : List BasicBlockP), (none : Option BasicBlockP)) := by
    refine ⟨?_, ?_⟩
    · intro b hb
      simp at hb
    · intro b hb
      exact Option.noConfusion hb
  have hfold := foldl_buildStep_ok elements ([], none) hstart
  intro b hb
  have hb2 : b ∈ (elements.foldl buildStep ([], none)).1 ++
      (elements.foldl buildStep ([], none)).2.toList := hb
  rcases List.mem_append.mp hb2 with hb2 | hb2
  · exact hfold.1 b hb2
  · rcases hcur : (elements.foldl buildStep ([], none)).2 with _ | cur
    · rw [hcur] at hb2; simp at hb2
    · rw [hcur] at hb2
      simp only [Option.toList_some, List.mem_singleton] at hb2
      subst hb2
      exact noMidTerm_of_all _ (hfold.2 _ hcur)

theorem errBind {α β : Type} (e : PyErr) (g : α → Except PyErr β) :
    ((Except.error e : Except PyErr α) >>= g) = .error e := rfl

theorem head_j_not_isReturn (m : String) (h : ['j'].isPrefixOf m.data = true) :
    isReturn m = false := by
  have hh : (pyLower m).data.head? = some 'j' :=
    (singleton_isPrefixOf _ _).mp (pyLower_head_j m h)
  by_contra hc
  simp only [Bool.not_eq_false] at hc
  simp only [isReturn, Bool.or_eq_true, decide_eq_true_eq] at hc
  rcases hc with (hc | hc) | hc <;> rw [hc] at hh <;> exact absurd hh (by decide)

theorem getLast?_cons_ne_none {α : Type} (x : α) (xs : List α) :
    (x :: xs).getLast? ≠ none := by
  induction xs generalizing x with
  | nil => simp [List.getLast?]
  | cons y ys ih =>
    rw [List.getLast?_cons_cons]
    exact ih y

theorem get?_some_lt {α : Type} (l : List α) (n : Nat) (a : α)
    (h : l.get? n = some a) : n < l.length := by
  by_contra hc
  push_neg at hc
  rw [List.get?_eq_none.mpr hc] at h
  exact Option.noConfusion h

theorem get?_last_eq {α : Type} (l : List α) (k : Nat) (x y : α)
    (hget : l.get? k = some x) (hlast : l.getLast? = some y)
    (hk : ¬ k + 1 < l.length) : x = y := by
  have hklen : k < l.length := get?_some_lt l k x hget
  have hk2 : k = l.length - 1 := by omega
  rw [List.getLast?_eq_get?] at hlast
  rw [hk2] at hget
  rw [hget] at hlast
  exact Option.some_inj.mp hlast

theorem noMidTerm_dropLast (b : BasicBlockP) (hP : NoMidTerm b)
    (k : Nat) (instr : Instruction)
    (hget : b.instructions.dropLast.get? k = some instr) :
    isTerminator instr.mnemonic = false := by
  have hklen : k < b.instructions.dropLast.length :=
    get?_some_lt _ k instr hget
  rw [List.length_dropLast] at hklen
  have hget2 : b.instructions.get? k = some instr := by
    rw [List.dropLast_eq_take] at hget
    rwa [List.get?_take hklen] at hget
  exact hP k (by omega) instr hget2

theorem linkOne_j_last (blocks : List BasicBlockP) (i : Nat) (b b2 : BasicBlockP)
    (hP : NoMidTerm b) (h : linkOne blocks i b = Except.ok b2)
    (k : Nat) (instr : Instruction)
    (hget : b2.instructions.get? k = some instr)
    (hj : ['j'].isPrefixOf instr.mnemonic.data = true) :
    blocks.length ≤ i + 1 ∧ k + 1 = b2.instructions.length := by
  have hjt : isTerminator instr.mnemonic = true := jpre_isTerminator _ hj
  simp only [linkOne] at h
  by_cases hemp : b.instructions.isEmpty = true
  · rw [if_pos hemp] at h
    injection h with h
    subst h
    rw [List.isEmpty_iff] at hemp
    have hget2 : b.instructions.get? k = some instr := hget
    rw [hemp] at hget2
    simp at hget2
  · rw [if_neg hemp] at h
    rcases hlast : b.instructions.getLast? with _ | last
    · exfalso
      rcases hbi : b.instructions with _ | ⟨x, xs⟩
      · rw [hbi] at hemp
        exact hemp rfl
      · rw [hbi] at hlast
        exact getLast?_cons_ne_none x xs hlast
    · simp only [hlast] at h
      by_cases hterm : isTerminator (pyLower last.mnemonic) = true
      · rw [if_neg (not_not_intro hterm)] at h
        by_cases hret : isReturn (pyLower last.mnemonic) = true
        · rw [if_pos hret] at h
          injection h with h
          subst h
          exfalso
          by_cases hk2 : k + 1 < b.instructions.length
          · have := hP k hk2 instr hget
            rw [hjt] at this
            exact Bool.noConfusion this
          · have hli : instr = last :=
              get?_last_eq b.instructions k instr last hget hlast hk2
            subst hli
            have : isReturn (pyLower instr.mnemonic) = false :=
              head_j_not_isReturn _ (pyLower_head_j _ hj)
            rw [this] at hret
            exact Bool.noConfusion hret
        · rw [if_neg hret] at h
          rcases hres : resolveTargetIdx blocks last with e | target
          · rw [hres, errBind] at h
            exact Except.noConfusion h
          · rw [hres] at h
            simp only [okBind] at h
            by_cases hni : i + 1 < blocks.length
            · exfalso
              simp only [if_pos hni] at h
              by_cases huncond : isUnconditional (pyLower last.mnemonic) = true
              · rw [if_neg (not_not_intro huncond), if_pos hret] at h
                injection h with h
                subst h
                have := noMidTerm_dropLast b hP k instr hget
                rw [hjt] at this
                exact Bool.noConfusion this
              · rw [if_pos huncond] at h
                rcases hcs : JumpCondition.fromMnemonic (pyLower last.mnemonic)
                    with e2 | cs
                · rw [hcs, errBind] at h
                  exact Except.noConfusion h
                · rw [hcs] at h
                  simp only [okBind] at h
                  injection h with h
                  subst h
                  have := noMidTerm_dropLast b hP k instr hget
                  rw [hjt] at this
                  exact Bool.noConfusion this
            · simp only [if_neg hni] at h
              by_cases hu2 : isUnconditional (pyLower last.mnemonic) = true ∧
                  ¬ (isReturn (pyLower last.mnemonic) = true)
              · exfalso
                rw [if_pos hu2] at h
                injection h with h
                subst h
                have := noMidTerm_dropLast b hP k instr hget
                rw [hjt] at this
                exact Bool.noConfusion this
              · rw [if_neg hu2] at h
                injection h with h
                subst h
                refine ⟨by omega, ?_⟩
                by_cases hk2 : k + 1 < b.instructions.length
                · exfalso
                  have := hP k hk2 instr hget
                  rw [hjt] at this
                  exact Bool.noConfusion this
                · have hklen : k < b.instructions.length :=
                    get?_some_lt _ k instr hget
                  omega
      · rw [if_pos hterm] at h
        injection h with h
        subst h
        exfalso
        have hget2 : b.instructions.get? k = some instr := hget
        by_cases hk2 : k + 1 < b.instructions.length
        · have := hP k hk2 instr hget2
          rw [hjt] at this
          exact Bool.noConfusion this
        · have hli : instr = last :=
            get?_last_eq b.instructions k instr last hget2 hlast hk2
          subst hli
          exact hterm (jpre_isTerminator _ (pyLower_head_j _ hj))

theorem mapME_length {α β : Type} (f : α → Except PyErr β) :
    ∀ (l : List α) (out : List β), mapME f l = .ok out → out.length = l.length := by
  intro l
  induction l with
  | nil =>
    intro out h
    injection h with h
    subst h
    rfl
  | cons x xs ih =>
    intro out h
    simp only [mapME] at h
    rcases hfx : f x with e | y
    · rw [hfx, errBind] at h
      exact Except.noConfusion h
    · rw [hfx] at h
      simp only [okBind] at h
      rcases hrec : mapME f xs with e | ys
      · rw [hrec, errBind] at h
        exact Except.noConfusion h
      · rw [hrec] at h
        simp only [okBind] at h
        injection h with h
        subst h
        simp [ih ys hrec]

theorem mapME_get? {α β : Type} (f : α → Except PyErr β) :
    ∀ (l : List α) (out : List β), mapME f l = .ok out →
      ∀ (n : Nat) (a : α) (c : β), l.get? n = some a → out.get? n = some c →
        f a = .ok c := by
  intro l
  induction l with
  | nil =>
    intro out h n a c ha hc
    simp at ha
  | cons x xs ih =>
    intro out h n a c ha hc
    simp only [mapME] at h
    rcases hfx : f x with e | y
    · rw [hfx, errBind] at h
      exact Except.noConfusion h
    · rw [hfx] at h
      simp only [okBind] at h
      rcases hrec : mapME f xs with e | ys
      · rw [hrec, errBind] at h
        exact Except.noConfusion h
      · rw [hrec] at h
        simp only [okBind] at h
        injection h with h
        subst h
        cases n with
        | zero =>
          have ha2 : some x = some a := ha
          have hc2 : some y = some c := hc
          rw [← Option.some_inj.mp ha2, ← Option.some_inj.mp hc2]
          exact hfx
        | succ m =>
          have ha2 : xs.get? m = some a := ha
          have hc2 : ys.get? m = some c := hc
          exact ih ys hrec m a c ha2 hc2

/-- C7: the claim states that after CFG linking no block's instruction list
contains a `j…` mnemonic.  Counterexample: when a conditional jump ends the
physically last block (so there is no fall-through block), `link_blocks`
leaves both the jump instruction and a `None` successor in place, so the
linked arena still contains the `je`. -/
theorem c7_no_jump_instructions_counterexample :
    parseLinkedBlocks ".text\nA:\n    movl %eax, %ebx\n    je A\n" =
      Except.ok [⟨"A",
        [⟨"movl", [.reg .EAX, .reg .EBX], 3⟩,
         ⟨"je", [.mem ⟨none, none, 1, ⟨0, [("A", 1)]⟩⟩], 4⟩], none⟩] ∧
    ['j'].isPrefixOf "je".data = true := ⟨rfl, by decide⟩

/-- C7 (amended): after `link_blocks`, an instruction whose mnemonic starts
with `j` can survive only as the very last instruction of the physically
last basic block of the arena (a trailing conditional jump with no
fall-through block is left in place); everywhere else branch semantics live
exclusively on the successor edges. -/
theorem c7_no_jump_instructions_amended (source : String)
    (blocks : List BasicBlockP)
    (h : parseLinkedBlocks source = Except.ok blocks)
    (i : Nat) (b : BasicBlockP) (hb : blocks.get? i = some b)
    (k : Nat) (instr : Instruction) (hk : b.instructions.get? k = some instr)
    (hj : ['j'].isPrefixOf instr.mnemonic.data = true) :
    i + 1 = blocks.length ∧ k + 1 = b.instructions.length := by
  simp only [parseLinkedBlocks] at h
  rcases hel : parseElements (filterTextSection false
      (stripCommentsStream (iterSourceLines source))) with e | elements
  · rw [hel, errBind] at h
    exact Except.noConfusion h
  · rw [hel] at h
    simp only [okBind] at h
    by_cases hbe : (buildBlocks elements).isEmpty = true
    · rw [if_pos hbe] at h
      injection h with h
      subst h
      simp at hb
    · rw [if_neg hbe] at h
      simp only [linkBlocks] at h
      have hlen : blocks.length = (buildBlocks elements).length := by
        have := mapME_length _ _ _ h
        rw [List.enum_length] at this
        exact this
      have hilt : i < blocks.length := get?_some_lt _ i b hb
      have hilt0 : i < (buildBlocks elements).length := by omega
      rcases hb0 : (buildBlocks elements).get? i with _ | b0
      · rw [List.get?_eq_none] at hb0
        omega
      · have henum : (buildBlocks elements).enum.get? i = some (i, b0) := by
          rw [List.get?_enum, hb0]
          rfl
        have hlink : linkOne (buildBlocks elements) i b0 = .ok b :=
          mapME_get? _ _ _ h i (i, b0) b henum hb
        have hnomid : NoMidTerm b0 :=
          buildBlocks_noMidTerm elements b0 (List.get?_mem hb0)
        have hmain := linkOne_j_last (buildBlocks elements) i b0 b hnomid
          hlink k instr hk hj
        refine ⟨?_, hmain.2⟩
        have h1 := hmain.1
        omega

/-- C7 witness: the amended invariant instantiated on a concrete program
whose last block ends in a trailing `je`; the jump sits at index 1 of 2 in
block 0 of 1. -/
theorem c7_no_jump_instructions_witness :
    (0 : Nat) + 1 = 1 ∧ (1 : Nat) + 1 = 2 :=
  c7_no_jump_instructions_amended
    ".text\nA:\n    movl %eax, %ebx\n    je A\n"
    [⟨"A", [⟨"movl", [.reg .EAX, .reg .EBX], 3⟩,
      ⟨"je", [.mem ⟨none, none, 1, ⟨0, [("A", 1)]⟩⟩], 4⟩], none⟩]
    rfl 0 ⟨"A", [⟨"movl", [.reg .EAX, .reg .EBX], 3⟩,
      ⟨"je", [.mem ⟨none, none, 1, ⟨0, [("A", 1)]⟩⟩], 4⟩], none⟩ rfl
    1 ⟨"je", [.mem ⟨none, none, 1, ⟨0, [("A", 1)]⟩⟩], 4⟩ rfl (by decide)

/-! ## Claim C8 — conditional successors and the alias table -/

/-- The twenty-two conditional jump aliases recognized by
`JumpCondition.from_mnemonic`. -/
def condAliases : List String :=
  ["je", "jz", "jne", "jnz", "jl", "jnge", "jge", "jnl", "jg", "jnle",
   "jle", "jng", "jb", "jnae", "jc", "jae", "jnb", "jnc", "ja", "jnbe",
   "jbe", "jna"]

set_option maxHeartbeats 2000000 in
theorem fromMnemonic_ok_mem (m : String) (cs : JumpCondition × Bool)
    (h : JumpCondition.fromMnemonic m = .ok cs) : pyLower m ∈ condAliases := by
  simp only [JumpCondition.fromMnemonic] at h
  split_ifs at h with h1 h2 h3 h4 h5 h6 h7 h8 h9 h10
  · rcases h1 with hx | hx <;> rw [hx] <;> decide
  · rcases h2 with hx | hx <;> rw [hx] <;> decide
  · rcases h3 with hx | hx <;> rw [hx] <;> decide
  · rcases h4 with hx | hx <;> rw [hx] <;> decide
  · rcases h5 with hx | hx <;> rw [hx] <;> decide
  · rcases h6 with hx | hx <;> rw [hx] <;> decide
  · rcases h7 with hx | hx | hx <;> rw [hx] <;> decide
  · rcases h8 with hx | hx | hx <;> rw [hx] <;> decide
  · rcases h9 with hx | hx <;> rw [hx] <;> decide
  · rcases h10 with hx | hx <;> rw [hx] <;> decide

set_option maxHeartbeats 800000 in
theorem condAliases_head_j (s : String) (h : s ∈ condAliases) :
    s.data.head? = some 'j' := by
  fin_cases h <;> decide

set_option maxHeartbeats 2000000 in
theorem fromMnemonic_err (m : String) (h : pyLower m ∉ condAliases) :
    JumpCondition.fromMnemonic m =
      .error (.valueError
        ("Unknown or unsupported conditional jump mnemonic: " ++ m)) := by
  simp only [JumpCondition.fromMnemonic]
  split_ifs with h1 h2 h3 h4 h5 h6 h7 h8 h9 h10
  · exact absurd (by rcases h1 with hx | hx <;> rw [hx] <;> decide) h
  · exact absurd (by rcases h2 with hx | hx <;> rw [hx] <;> decide) h
  · exact absurd (by rcases h3 with hx | hx <;> rw [hx] <;> decide) h
  · exact absurd (by rcases h4 with hx | hx <;> rw [hx] <;> decide) h
  · exact absurd (by rcases h5 with hx | hx <;> rw [hx] <;> decide) h
  · exact absurd (by rcases h6 with hx | hx <;> rw [hx] <;> decide) h
  · exact absurd (by rcases h7 with hx | hx | hx <;> rw [hx] <;> decide) h
  · exact absurd (by rcases h8 with hx | hx | hx <;> rw [hx] <;> decide) h
  · exact absurd (by rcases h9 with hx | hx <;> rw [hx] <;> decide) h
  · exact absurd (by rcases h10 with hx | hx <;> rw [hx] <;> decide) h
  · rfl

theorem linkOne_conditional (blocks : List BasicBlockP) (i : Nat)
    (b : BasicBlockP) (last : Instruction) (target : Nat)
    (cs : JumpCondition × Bool)
    (hlast : b.instructions.getLast? = some last)
    (hcs : JumpCondition.fromMnemonic (pyLower last.mnemonic) = .ok cs)
    (hnext : i + 1 < blocks.length)
    (hres : resolveTargetIdx blocks last = .ok target) :
    linkOne blocks i b = .ok { b with
      successor := some (if cs.2 then Succ.cond (i + 1) target cs.1
        else Succ.cond target (i + 1) cs.1),
      instructions := b.instructions.dropLast } := by
  have hmem : pyLower (pyLower last.mnemonic) ∈ condAliases :=
    fromMnemonic_ok_mem _ _ hcs
  have hhead : (pyLower (pyLower last.mnemonic)).data.head? = some 'j' :=
    condAliases_head_j _ hmem
  have hterm : isTerminator (pyLower last.mnemonic) = true := by
    simp only [isTerminator]
    rw [(singleton_isPrefixOf _ _).mpr hhead]
    simp
  have hret : ¬ (isReturn (pyLower last.mnemonic) = true) := by
    intro hc
    simp only [isReturn, Bool.or_eq_true, decide_eq_true_eq] at hc
    rcases hc with (hc | hc) | hc <;> rw [hc] at hhead <;>
      exact absurd hhead (by decide)
  have huncond : ¬ (isUnconditional (pyLower last.mnemonic) = true) := by
    intro hc
    simp only [isUnconditional, Bool.or_eq_true, decide_eq_true_eq] at hc
    rcases hc with (((hc | hc) | hc) | hc) | hc <;> rw [hc] at hmem <;>
      exact absurd hmem (by decide)
  have hempty : ¬ (b.instructions.isEmpty = true) := by
    intro hx
    rw [List.isEmpty_iff] at hx
    rw [hx] at hlast
    simp at hlast
  simp only [linkOne]
  rw [if_neg hempty]
  simp only [hlast]
  rw [if_neg (not_not_intro hterm), if_neg hret, hres]
  simp only [okBind, if_pos hnext]
  rw [if_pos huncond, hcs]
  simp only [okBind]

/-- Claim C8: for every block ending in a recognized conditional jump with a
known target block and an existing next physical block, `link_blocks`
installs a conditional successor — a swapped alias puts the fall-through
block on the true edge, an unswapped one puts the target there — and pops
the jump instruction from the block; the mnemonic table maps je/jz→JE,
jne/jnz→JE swapped, jl/jnge→JL, jge/jnl→JL swapped, jg/jnle→JG, jle/jng→JG
swapped, jb/jnae/jc→JB, jae/jnb/jnc→JB swapped, ja/jnbe→JA, jbe/jna→JA
swapped; and any mnemonic outside the table raises `ValueError`. -/
theorem c8_conditional_successor_swap_table
    (blocks : List BasicBlockP) (i : Nat) (b : BasicBlockP)
    (last : Instruction) (target : Nat) (cs : JumpCondition × Bool)
    (hlast : b.instructions.getLast? = some last)
    (hcs : JumpCondition.fromMnemonic (pyLower last.mnemonic) = .ok cs)
    (hnext : i + 1 < blocks.length)
    (hres : resolveTargetIdx blocks last = .ok target)
    (m : String) (hm : pyLower m ∉ condAliases) :
    linkOne blocks i b = .ok { b with
      successor := some (if cs.2 then Succ.cond (i + 1) target cs.1
        else Succ.cond target (i + 1) cs.1),
      instructions := b.instructions.dropLast } ∧
    (JumpCondition.fromMnemonic "je" = .ok (.JE, false) ∧
     JumpCondition.fromMnemonic "jz" = .ok (.JE, false) ∧
     JumpCondition.fromMnemonic "jne" = .ok (.JE, true) ∧
     JumpCondition.fromMnemonic "jnz" = .ok (.JE, true) ∧
     JumpCondition.fromMnemonic "jl" = .ok (.JL, false) ∧
     JumpCondition.fromMnemonic "jnge" = .ok (.JL, false) ∧
     JumpCondition.fromMnemonic "jge" = .ok (.JL, true) ∧
     JumpCondition.fromMnemonic "jnl" = .ok (.JL, true) ∧
     JumpCondition.fromMnemonic "jg" = .ok (.JG, false) ∧
     JumpCondition.fromMnemonic "jnle" = .ok (.JG, false) ∧
     JumpCondition.fromMnemonic "jle" = .ok (.JG, true) ∧
     JumpCondition.fromMnemonic "jng" = .ok (.JG, true) ∧
     JumpCondition.fromMnemonic "jb" = .ok (.JB, false) ∧
     JumpCondition.fromMnemonic "jnae" = .ok (.JB, false) ∧
     JumpCondition.fromMnemonic "jc" = .ok (.JB, false) ∧
     JumpCondition.fromMnemonic "jae" = .ok (.JB, true) ∧
     JumpCondition.fromMnemonic "jnb" = .ok (.JB, true) ∧
     JumpCondition.fromMnemonic "jnc" = .ok (.JB, true) ∧
     JumpCondition.fromMnemonic "ja" = .ok (.JA, false) ∧
     JumpCondition.fromMnemonic "jnbe" = .ok (.JA, false) ∧
     JumpCondition.fromMnemonic "jbe" = .ok (.JA, true) ∧
     JumpCondition.fromMnemonic "jna" = .ok (.JA, true)) ∧
    JumpCondition.fromMnemonic m = .error (.valueError
      ("Unknown or unsupported conditional jump mnemonic: " ++ m)) :=
  ⟨linkOne_conditional blocks i b last target cs hlast hcs hnext hres,
   ⟨rfl, rfl, rfl, rfl, rfl, rfl, rfl, rfl, rfl, rfl, rfl,
    rfl, rfl, rfl, rfl, rfl, rfl, rfl, rfl, rfl, rfl, rfl⟩,
   fromMnemonic_err m hm⟩

/-- C8 witness: a two-block arena whose first block ends in `jne A`; linking
installs the swapped conditional successor (fall-through on the true edge)
and removes the jump, and `jo` is rejected. -/
theorem c8_conditional_successor_swap_table_witness :
    linkOne [⟨"A", [], none⟩, ⟨"B", [], none⟩] 0
        ⟨"A", [⟨"jne", [.mem ⟨none, none, 1, ⟨0, [("A", 1)]⟩⟩], 2⟩], none⟩ =
      .ok ⟨"A", [], some (Succ.cond 1 0 .JE)⟩ ∧
    (JumpCondition.fromMnemonic "je" = .ok (.JE, false) ∧
     JumpCondition.fromMnemonic "jz" = .ok (.JE, false) ∧
     JumpCondition.fromMnemonic "jne" = .ok (.JE, true) ∧
     JumpCondition.fromMnemonic "jnz" = .ok (.JE, true) ∧
     JumpCondition.fromMnemonic "jl" = .ok (.JL, false) ∧
     JumpCondition.fromMnemonic "jnge" = .ok (.JL, false) ∧
     JumpCondition.fromMnemonic "jge" = .ok (.JL, true) ∧
     JumpCondition.fromMnemonic "jnl" = .ok (.JL, true) ∧
     JumpCondition.fromMnemonic "jg" = .ok (.JG, false) ∧
     JumpCondition.fromMnemonic "jnle" = .ok (.JG, false) ∧
     JumpCondition.fromMnemonic "jle" = .ok (.JG, true) ∧
     JumpCondition.fromMnemonic "jng" = .ok (.JG, true) ∧
     JumpCondition.fromMnemonic "jb" = .ok (.JB, false) ∧
     JumpCondition.fromMnemonic "jnae" = .ok (.JB, false) ∧
     JumpCondition.fromMnemonic "jc" = .ok (.JB, false) ∧
     JumpCondition.fromMnemonic "jae" = .ok (.JB, true) ∧
     JumpCondition.fromMnemonic "jnb" = .ok (.JB, true) ∧
     JumpCondition.fromMnemonic "jnc" = .ok (.JB, true) ∧
     JumpCondition.fromMnemonic "ja" = .ok (.JA, false) ∧
     JumpCondition.fromMnemonic "jnbe" = .ok (.JA, false) ∧
     JumpCondition.fromMnemonic "jbe" = .ok (.JA, true) ∧
     JumpCondition.fromMnemonic "jna" = .ok (.JA, true)) ∧
    JumpCondition.fromMnemonic "jo" = .error (.valueError
      ("Unknown or unsupported conditional jump mnemonic: " ++ "jo")) :=
  c8_conditional_successor_swap_table
    [⟨"A", [], none⟩, ⟨"B", [], none⟩] 0
    ⟨"A", [⟨"jne", [.mem ⟨none, none, 1, ⟨0, [("A", 1)]⟩⟩], 2⟩], none⟩
    ⟨"jne", [.mem ⟨none, none, 1, ⟨0, [("A", 1)]⟩⟩], 2⟩ 0 (.JE, true)
    rfl rfl (by decide) rfl "jo" (by decide)

/-! ## Claim C9 — src/src/memorymanager/manager.py -/

/-- `AllocationDetails`: one entry of the linear layout. -/
structure AllocationDetails where
  name : String
  offset : Int
  size : Int
  initialValueStr : Option String := none
  directive : String := ".zero"
deriving Repr, DecidableEq

/-- The public `Allocation` result. -/
structure Allocation where
  offset : Int
  size : Int
deriving Repr, DecidableEq

/-- `MemoryManager.__init__` state. -/
structure MemoryManager where
  masterLabel : String := "__MEMORY"
  alignment : Int := 4
  currentOffset : Int := 0
  allocations : List AllocationDetails := []
deriving Repr, DecidableEq

/-- `MemoryManager._register_allocation`: pad to the alignment when the
cursor is misaligned (appending a `__pad_<offset>` zero block), then append
the allocation and advance the cursor. -/
def registerAllocation (mm : MemoryManager) (name : String) (size : Int)
    (directive : String) (ivs : Option String) : MemoryManager × Allocation :=
  let mm :=
    if mm.currentOffset % mm.alignment ≠ 0 then
      let padding := mm.alignment - mm.currentOffset % mm.alignment
      { mm with
        allocations := mm.allocations ++
          [⟨"__pad_" ++ (⟨intChars mm.currentOffset⟩ : String),
            mm.currentOffset, padding, none, ".zero"⟩],
        currentOffset := mm.currentOffset + padding }
    else mm
  let offset := mm.currentOffset
  ({ mm with
     allocations := mm.allocations ++ [⟨name, offset, size, ivs, directive⟩],
     currentOffset := offset + size },
   ⟨offset, size⟩)

/-- The values `allocate_data` accepts.  The `float` arm of the source match
(which only changes the rendered `initial_value_str` through Python `str` on
floats) is not exercised by any statement below and is omitted; `list`
elements are likewise restricted to ints. -/
inductive DataValue where
  | int (v : Int)
  | str (v : String)
  | list (items : List Int)
deriving Repr, DecidableEq

/-- `", ".join(str(x) for x in items)`. -/
def joinCommaInts : List Int → List Char
  | [] => []
  | [x] => intChars x
  | x :: y :: xs => intChars x ++ (',' :: ' ' :: joinCommaInts (y :: xs))

/-- `MemoryManager.allocate_data`. -/
def allocateData (mm : MemoryManager) (value : DataValue) (name : String) :
    Except PyErr (MemoryManager × Allocation) :=
  match value with
  | .int v => .ok (registerAllocation mm name 4 ".int" (some ⟨intChars v⟩))
  | .str v => .ok (registerAllocation mm name ((v.data.length : Int) + 1)
      ".asciz" (some ("\"" ++ v ++ "\"")))
  | .list items =>
    if items.isEmpty then
      .error (.valueError "Cannot allocate empty list. Use allocate_empty instead.")
    else
      .ok (registerAllocation mm name ((items.length : Int) * 4) ".int"
        (some ⟨joinCommaInts items⟩))

/-- `MemoryManager.allocate_empty`. -/
def allocateEmpty (mm : MemoryManager) (size : Int) (name : String) :
    Except PyErr (MemoryManager × Allocation) :=
  if size ≤ 0 then .error (.valueError "Size must be positive.")
  else .ok (registerAllocation mm name size ".zero" none)

theorem registerAllocation_aligned (mm : MemoryManager) (name : String)
    (size : Int) (directive : String) (ivs : Option String)
    (h : mm.currentOffset % mm.alignment = 0) :
    registerAllocation mm name size directive ivs =
      ({ mm with
          allocations := mm.allocations ++
            [⟨name, mm.currentOffset, size, ivs, directive⟩],
          currentOffset := mm.currentOffset + size },
       ⟨mm.currentOffset, size⟩) := by
  simp only [registerAllocation]
  rw [if_neg (not_not_intro h)]

theorem registerAllocation_misaligned (mm : MemoryManager) (name : String)
    (size : Int) (directive : String) (ivs : Option String)
    (h : mm.currentOffset % mm.alignment ≠ 0) :
    registerAllocation mm name size directive ivs =
      ({ mm with
          allocations := mm.allocations ++
            [⟨"__pad_" ++ (⟨intChars mm.currentOffset⟩ : String),
              mm.currentOffset,
              mm.alignment - mm.currentOffset % mm.alignment, none, ".zero"⟩,
             ⟨name,
              mm.currentOffset + (mm.alignment - mm.currentOffset % mm.alignment),
              size, ivs, directive⟩],
          currentOffset := mm.currentOffset +
            (mm.alignment - mm.currentOffset % mm.alignment) + size },
       ⟨mm.currentOffset + (mm.alignment - mm.currentOffset % mm.alignment),
        size⟩) := by
  simp only [registerAllocation]
  rw [if_pos h]
  simp [List.append_assoc]

/-- Claim C9: for an allocator with positive alignment, every returned
offset is a multiple of the alignment; when the cursor is aligned no padding
is inserted and the cursor advances by the size; when it is misaligned a
`__pad_<offset>` zero block of `alignment - offset % alignment` bytes is
inserted first and the cursor advances by padding plus size; and the
int/\"A\"/int scenario yields offsets 0, 4, 8 with final cursor 12. -/
theorem c9_alignment_and_padding (mm : MemoryManager) (name : String)
    (size : Int) (directive : String) (ivs : Option String)
    (halign : 0 < mm.alignment) :
    ((registerAllocation mm name size directive ivs).2.offset %
        mm.alignment = 0) ∧
    (mm.currentOffset % mm.alignment = 0 →
      registerAllocation mm name size directive ivs =
        ({ mm with
            allocations := mm.allocations ++
              [⟨name, mm.currentOffset, size, ivs, directive⟩],
            currentOffset := mm.currentOffset + size },
         ⟨mm.currentOffset, size⟩)) ∧
    (mm.currentOffset % mm.alignment ≠ 0 →
      registerAllocation mm name size directive ivs =
        ({ mm with
            allocations := mm.allocations ++
              [⟨"__pad_" ++ (⟨intChars mm.currentOffset⟩ : String),
                mm.currentOffset,
                mm.alignment - mm.currentOffset % mm.alignment, none, ".zero"⟩,
               ⟨name,
                mm.currentOffset +
                  (mm.alignment - mm.currentOffset % mm.alignment),
                size, ivs, directive⟩],
            currentOffset := mm.currentOffset +
              (mm.alignment - mm.currentOffset % mm.alignment) + size },
         ⟨mm.currentOffset + (mm.alignment - mm.currentOffset % mm.alignment),
          size⟩)) ∧
    ((do
      let r1 ← allocateData {} (.int 1337) "counter"
      let r2 ← allocateData r1.1 (.str "A") "flag"
      let r3 ← allocateData r2.1 (.int 99) "next_val"
      Except.ok (r1.2.offset, r2.2.offset, r3.2.offset,
        r3.1.currentOffset)) =
      .ok ((0 : Int), (4 : Int), (8 : Int), (12 : Int))) := by
  refine ⟨?_, ?_, ?_, ?_⟩
  · by_cases h : mm.currentOffset % mm.alignment = 0
    · rw [registerAllocation_aligned mm name size directive ivs h]
      exact h
    · rw [registerAllocation_misaligned mm name size directive ivs h]
      show (mm.currentOffset +
        (mm.alignment - mm.currentOffset % mm.alignment)) % mm.alignment = 0
      have key : mm.currentOffset +
          (mm.alignment - mm.currentOffset % mm.alignment) =
          mm.alignment * (mm.currentOffset / mm.alignment + 1) := by
        rw [Int.emod_def]
        ring
      rw [key, Int.mul_emod_right]
  · intro h
    exact registerAllocation_aligned mm name size directive ivs h
  · intro h
    exact registerAllocation_misaligned mm name size directive ivs h
  · rfl

/-- C9 witness: a cursor at 6 with alignment 4 still yields an aligned
offset. -/
theorem c9_alignment_and_padding_witness :
    (0 : Int) < 4 ∧
    (registerAllocation ⟨"__MEMORY", 4, 6, []⟩ "x" 4 ".int"
        (some "9")).2.offset % 4 = 0 :=
  ⟨by decide,
   (c9_alignment_and_padding ⟨"__MEMORY", 4, 6, []⟩ "x" 4 ".int" (some "9")
     (by decide)).1⟩

/-! ## Claim C10 — src/src/dataparser/parser.py

`strip_comments` of the data parser applies the same per-line transform as
the text parser's (`split(\"#\", 1)[0]`, `split(\"//\", 1)[0]`, `strip`), so
`stripCommentsLine` embeds both. -/

theorem cutBefore_single (p : Char) (xs : List Char) :
    cutBefore [p] xs = xs.takeWhile (fun c => !(c == p)) := by
  induction xs with
  | nil => rfl
  | cons c rest ih =>
    rw [List.takeWhile_cons]
    by_cases h : c = p
    · subst h
      rw [cutBefore, if_pos (by simp [List.isPrefixOf])]
      simp
    · rw [cutBefore, if_neg (by simp [List.isPrefixOf]; exact Ne.symm h)]
      rw [if_pos (by simp [h]), ih]

theorem cutBefore_take (pat : List Char) (xs : List Char) :
    ∃ n, cutBefore pat xs = xs.take n := by
  induction xs with
  | nil => exact ⟨0, rfl⟩
  | cons c rest ih =>
    by_cases h : pat.isPrefixOf (c :: rest) = true
    · exact ⟨0, by rw [cutBefore, if_pos h]; rfl⟩
    · obtain ⟨n, hn⟩ := ih
      exact ⟨n + 1, by rw [cutBefore, if_neg h, hn]; rfl⟩

theorem cutBefore_append_stop (pat : List Char) (hpat : pat ≠ [])
    (ys : List Char) (hys : pat.isPrefixOf ys = true) :
    ∀ xs : List Char, ∃ n, n ≤ xs.length ∧ cutBefore pat (xs ++ ys) = xs.take n := by
  intro xs
  induction xs with
  | nil =>
    rcases pat with _ | ⟨p, ps⟩
    · exact absurd rfl hpat
    · rcases ys with _ | ⟨y, ts⟩
      · simp [List.isPrefixOf] at hys
      · exact ⟨0, by omega, by rw [List.nil_append, cutBefore, if_pos hys]; rfl⟩
  | cons x rest ih =>
    by_cases h : pat.isPrefixOf (x :: (rest ++ ys)) = true
    · exact ⟨0, by omega, by rw [List.cons_append, cutBefore, if_pos h]; rfl⟩
    · obtain ⟨n, hn, he⟩ := ih
      exact ⟨n + 1, by simpa using hn,
        by rw [List.cons_append, cutBefore, if_neg h, he]; rfl⟩

theorem takeWhile_append_all {α : Type} (p : α → Bool) (xs ys : List α)
    (h : ∀ a ∈ xs, p a = true) :
    (xs ++ ys).takeWhile p = xs ++ ys.takeWhile p := by
  induction xs with
  | nil => simp
  | cons x rest ih =>
    rw [List.cons_append, List.takeWhile_cons, if_pos (h x (by simp))]
    rw [ih (fun a ha => h a (by simp [ha]))]
    rfl

theorem takeWhile_append_stop {α : Type} (p : α → Bool) (xs ys : List α)
    (h : ∃ a ∈ xs, ¬ p a = true) :
    (xs ++ ys).takeWhile p = xs.takeWhile p := by
  induction xs with
  | nil => simp at h
  | cons x rest ih =>
    by_cases hx : p x = true
    · rw [List.cons_append, List.takeWhile_cons, if_pos hx,
        List.takeWhile_cons, if_pos hx]
      rcases h with ⟨a, ha, hpa⟩
      rcases List.mem_cons.mp ha with rfl | ha2
      · exact absurd hx hpa
      · rw [ih ⟨a, ha2, hpa⟩]
    · rw [List.cons_append, List.takeWhile_cons, if_neg hx,
        List.takeWhile_cons, if_neg hx]

theorem takeWhile_all {α : Type} (p : α → Bool) (xs : List α)
    (h : ∀ a ∈ xs, p a = true) : xs.takeWhile p = xs := by
  induction xs with
  | nil => rfl
  | cons x rest ih =>
    rw [List.takeWhile_cons, if_pos (h x (by simp)),
      ih (fun a ha => h a (by simp [ha]))]

theorem dropWhile_head_false {α : Type} (p : α → Bool) :
    ∀ (l : List α) x xs, l.dropWhile p = x :: xs → p x = false := by
  intro l
  induction l with
  | nil => intro x xs h; simp at h
  | cons a as ih =>
    intro x xs h
    rw [List.dropWhile_cons] at h
    by_cases hp : p a = true
    · rw [if_pos hp] at h
      exact ih x xs h
    · rw [if_neg hp] at h
      injection h with h1 h2
      subst h1
      simpa using hp

theorem count_sub_le {α : Type} [DecidableEq α] (a : α) (l : List α) (n : Nat) :
    (l.take n).count a ≤ l.count a :=
  (List.take_sublist n l).count_le a

theorem count_dropWhile_le {α : Type} [DecidableEq α] (a : α) (p : α → Bool)
    (l : List α) : (l.dropWhile p).count a ≤ l.count a :=
  (List.dropWhile_sublist p).count_le a

theorem count_takeWhile_le {α : Type} [DecidableEq α] (a : α) (p : α → Bool)
    (l : List α) : (l.takeWhile p).count a ≤ l.count a :=
  (List.takeWhile_sublist p).count_le a

def reSearchQuoted (cs : List Char) : Option (List Char) :=
  match cs.dropWhile (fun c => !(c == '"')) with
  | [] => none
  | _ :: tail =>
    match tail.reverse.dropWhile (fun c => !(c == '"')) with
    | [] => none
    | _ :: rtail => some ('"' :: rtail.reverse ++ ['"'])

theorem reSearchQuoted_eq_none (cs : List Char) (h : cs.count '"' ≤ 1) :
    reSearchQuoted cs = none := by
  unfold reSearchQuoted
  rcases hdrop : cs.dropWhile (fun c => !(c == '"')) with _ | ⟨c, tail⟩
  · rfl
  · have hc : c = '"' := by
      have := dropWhile_head_false _ cs c tail hdrop
      simpa using this
    subst hc
    have hcount : ('"' :: tail).count '"' ≤ 1 := by
      calc ('"' :: tail).count '"'
          = (cs.dropWhile (fun c => !(c == '"'))).count '"' := by rw [hdrop]
        _ ≤ cs.count '"' := count_dropWhile_le _ _ _
        _ ≤ 1 := h
    have htail : tail.count '"' = 0 := by
      rw [List.count_cons_self] at hcount
      omega
    have hnotmem : ¬ '"' ∈ tail := List.count_eq_zero.mp htail
    have hrev : tail.reverse.dropWhile (fun c => !(c == '"')) = [] := by
      rw [List.dropWhile_eq_nil_iff]
      intro x hx
      have hxt : x ∈ tail := List.mem_reverse.mp hx
      simp only [Bool.not_eq_true', beq_eq_false_iff_ne]
      exact fun hh => hnotmem (hh ▸ hxt)
    simp only [hrev]

/-- One backslash escape of a Python double-quoted string literal (the
common single-character escapes; an unrecognized escape keeps the
backslash, as Python does; octal/hex escapes are outside the modelled
fragment and no statement below evaluates them). -/
def escChar (c : Char) : List Char :=
  if c = 'n' then ['\n']
  else if c = 't' then ['\t']
  else if c = 'r' then ['\r']
  else if c = '\\' then ['\\']
  else if c = '"' then ['"']
  else if c.toNat = 39 then [Char.ofNat 39]
  else if c = '0' then [Char.ofNat 0]
  else ['\\', c]

/-- Scan of a double-quoted literal body: characters up to an unescaped
closing quote, processing backslash escapes; running off the end (or a
trailing backslash) is Python's unterminated-string `SyntaxError`.  A
closing quote followed by further content (implicit adjacent-literal
concatenation) is outside the modelled fragment and no statement below
evaluates such a match. -/
def literalEvalDqGo : List Char → List Char → Except PyErr (List Char)
  | [], _ => .error (.syntaxError "unterminated string literal")
  | '"' :: rest, acc =>
    if rest.isEmpty then .ok acc
    else .error (.syntaxError "invalid syntax")
  | ['\\'], _ => .error (.syntaxError "unterminated string literal")
  | '\\' :: c :: rest, acc => literalEvalDqGo rest (acc ++ escChar c)
  | c :: rest, acc => literalEvalDqGo rest (acc ++ [c])

/-- `ast.literal_eval` on the quoted-string match (which always starts and
ends with `"`). -/
def literalEvalDq (q : List Char) : Except PyErr (List Char) :=
  match q with
  | '"' :: rest => literalEvalDqGo rest []
  | _ => .error (.syntaxError "invalid syntax")

/-- The `.asciz`/`.string`/`.ascii` arm of `parse_directive`: when the
quoted-string search fails, the arm falls through and returns `None` without
touching the allocator; on a match, `ast.literal_eval` evaluates the matched
literal (raising `SyntaxError` on a truncated one — the branch has no
`try`/`except`, so the error propagates) and the result is allocated as
string data. -/
def parseAscizDirective (mm : MemoryManager) (label : String)
    (args : List Char) : Except PyErr (MemoryManager × Option Allocation) :=
  match reSearchQuoted args with
  | none => .ok (mm, none)
  | some q => do
    let content ← literalEvalDq q
    (allocateData mm (.str ⟨content⟩) label).map
      fun r => (r.1, some r.2)

theorem count_pyStrip_le (a : Char) (l : List Char) :
    (pyStrip l).count a ≤ l.count a := by
  unfold pyStrip
  rw [List.count_reverse]
  refine le_trans (count_dropWhile_le a isWsChar _) ?_
  rw [List.count_reverse]
  exact count_dropWhile_le a isWsChar l

theorem count_splitFirstWs_snd_le (a : Char) (l : List Char) :
    ((splitFirstWs l).2).count a ≤ l.count a := by
  refine le_trans (count_dropWhile_le a isWsChar _) ?_
  exact count_dropWhile_le a _ l

/-- Claim C10 (counterexample): the claim says every `.asciz`/`.string`/
`.ascii` literal containing `#` or `//` is *silently dropped* rather than
stored or reported as an error.  Not when the literal contains an escaped
quote: for `.asciz "a\"b#c"` the truncation at `#` leaves the argument
`"a\"b`, which still holds two quote characters, so `re.search('(".*")')`
matches `"a\"` and `ast.literal_eval` raises `SyntaxError` (the escape
consumes the would-be closing quote) — the datum is reported as an error,
not silently dropped. -/
theorem c10_comment_truncation_counterexample :
    reSearchQuoted (pyStrip ((splitFirstWs (stripCommentsLine
        (".asciz \"a\\\"b#c\"" : String).data)).2)) =
      some ['"', 'a', '\\', '"'] ∧
    parseAscizDirective ⟨"__MEMORY", 4, 0, []⟩ "secret"
        (pyStrip ((splitFirstWs (stripCommentsLine
          (".asciz \"a\\\"b#c\"" : String).data)).2)) =
      .error (.syntaxError "unterminated string literal") := ⟨rfl, rfl⟩

/-- Claim C10 (amended): comment stripping in the data parser cuts a line
at the first `#` or `//` with no regard for quoting.  For an `.asciz`/
`.string`/`.ascii` directive whose quoted literal contains `#` or `//` but
no quote character of its own, the truncated argument keeps at most one
quote, the quoted-string search fails, and the directive returns `None` —
that datum is silently dropped, with no allocator call and no error.  (When
the literal contains an escaped quote, the search still matches on the
truncated argument and `ast.literal_eval` raises `SyntaxError` instead —
the counterexample above.) -/
theorem c10_comment_truncation_drops_string (d : String)
    (hd : d ∈ ([".asciz", ".string", ".ascii"] : List String))
    (content : List Char) (hq : ¬ '"' ∈ content)
    (hmark : '#' ∈ content ∨ ∃ u v, content = u ++ '/' :: '/' :: v)
    (mm : MemoryManager) (label : String) :
    reSearchQuoted (pyStrip ((splitFirstWs (stripCommentsLine
        (d.data ++ ' ' :: '"' :: (content ++ ['"'])))).2)) = none ∧
    parseAscizDirective mm label (pyStrip ((splitFirstWs (stripCommentsLine
        (d.data ++ ' ' :: '"' :: (content ++ ['"'])))).2)) = .ok (mm, none) := by
  have F1 : ∀ c ∈ d.data, (!(c == '#')) = true := by
    fin_cases hd <;> decide
  have F2 : d.data.count '"' = 0 := by
    fin_cases hd <;> decide
  have hcontq : content.count '"' = 0 := List.count_eq_zero.mpr hq
  have hcut2 : (cutBefore ['/', '/'] (cutBefore ['#']
      (d.data ++ ' ' :: '"' :: (content ++ ['"'])))).count '"' ≤ 1 := by
    by_cases hhash : '#' ∈ content
    · have h0 : (cutBefore ['#']
          (d.data ++ ' ' :: '"' :: (content ++ ['"']))).count '"' ≤ 1 := by
        rw [cutBefore_single]
        have hline : d.data ++ ' ' :: '"' :: (content ++ ['"']) =
            (d.data ++ [' ', '"']) ++ (content ++ ['"']) := by simp
        rw [hline]
        rw [takeWhile_append_all _ _ _ (by
          intro a ha
          rcases List.mem_append.mp ha with ha | ha
          · exact F1 a ha
          · rcases List.mem_cons.mp ha with rfl | ha2
            · decide
            · simp only [List.mem_singleton] at ha2
              subst ha2
              decide)]
        rw [takeWhile_append_stop _ _ _ ⟨'#', hhash, by decide⟩]
        rw [List.count_append, List.count_append]
        have ht := count_takeWhile_le '"' (fun c => !(c == '#')) content
        rw [hcontq] at ht
        have h2 : List.count '"' ([' ', '"'] : List Char) = 1 := by decide
        rw [F2, h2]
        omega
      obtain ⟨n, hn⟩ := cutBefore_take ['/', '/'] (cutBefore ['#']
        (d.data ++ ' ' :: '"' :: (content ++ ['"'])))
      rw [hn]
      exact le_trans (count_sub_le _ _ _) h0
    · rcases hmark with hh | ⟨u, v, huv⟩
      · exact absurd hh hhash
      · have hcut1 : cutBefore ['#']
            (d.data ++ ' ' :: '"' :: (content ++ ['"'])) =
            d.data ++ ' ' :: '"' :: (content ++ ['"']) := by
          rw [cutBefore_single]
          refine takeWhile_all _ _ ?_
          intro a ha
          rcases List.mem_append.mp ha with ha | ha
          · exact F1 a ha
          · rcases List.mem_cons.mp ha with rfl | ha2
            · decide
            · rcases List.mem_cons.mp ha2 with rfl | ha3
              · decide
              · rcases List.mem_append.mp ha3 with ha4 | ha4
                · have : a ≠ '#' := fun he => hhash (he ▸ ha4)
                  simpa using this
                · simp only [List.mem_singleton] at ha4
                  subst ha4
                  decide
        rw [hcut1]
        have hline2 : d.data ++ ' ' :: '"' :: (content ++ ['"']) =
            (d.data ++ ' ' :: '"' :: u) ++ ('/' :: '/' :: (v ++ ['"'])) := by
          rw [huv]
          simp
        rw [hline2]
        obtain ⟨n, hn, he⟩ := cutBefore_append_stop ['/', '/'] (by simp)
          ('/' :: '/' :: (v ++ ['"'])) (by simp [List.isPrefixOf])
          (d.data ++ ' ' :: '"' :: u)
        rw [he]
        have hu : u.count '"' = 0 := by
          rw [List.count_eq_zero]
          intro hmem
          exact hq (huv ▸ List.mem_append.mpr (Or.inl hmem))
        have huh : List.count '"' (' ' :: '"' :: u) = 1 := by
          rw [show (' ' :: '"' :: u) = [' ', '"'] ++ u from rfl,
            List.count_append, hu]
          decide
        have hpre : (d.data ++ ' ' :: '"' :: u).count '"' = 1 := by
          rw [List.count_append, F2, huh]
        calc ((d.data ++ ' ' :: '"' :: u).take n).count '"'
            ≤ (d.data ++ ' ' :: '"' :: u).count '"' := count_sub_le _ _ _
          _ = 1 := hpre
  have hargs : (pyStrip ((splitFirstWs (stripCommentsLine
      (d.data ++ ' ' :: '"' :: (content ++ ['"'])))).2)).count '"' ≤ 1 := by
    refine le_trans (count_pyStrip_le _ _) ?_
    refine le_trans (count_splitFirstWs_snd_le _ _) ?_
    unfold stripCommentsLine
    exact le_trans (count_pyStrip_le _ _) hcut2
  have hnone := reSearchQuoted_eq_none _ hargs
  refine ⟨hnone, ?_⟩
  unfold parseAscizDirective
  simp only [hnone]

/-- C10 witness: `.asciz "pass#word"` is silently dropped. -/
theorem c10_comment_truncation_drops_string_witness :
    reSearchQuoted (pyStrip ((splitFirstWs (stripCommentsLine
        ((".asciz" : String).data ++ ' ' :: '"' ::
          (("pass#word" : String).data ++ ['"'])))).2)) = none ∧
    parseAscizDirective ⟨"__MEMORY", 4, 0, []⟩ "secret"
        (pyStrip ((splitFirstWs (stripCommentsLine
          ((".asciz" : String).data ++ ' ' :: '"' ::
            (("pass#word" : String).data ++ ['"'])))).2)) =
      .ok (⟨"__MEMORY", 4, 0, []⟩, none) :=
  c10_comment_truncation_drops_string ".asciz" (by decide)
    ("pass#word" : String).data (by decide) (Or.inl (by decide))
    ⟨"__MEMORY", 4, 0, []⟩ "secret"

/-! ## Claims C2 and C4 — src/src/blockpreprocessor/context.py -/

/-- `RegisterOperand.get_32bit_counterpart`: `context.py` calls this method
on register operands, but `RegisterOperand` (src/src/textparser/models.py)
defines no such method and no definition for it exists anywhere in the
repository, so every call raises `AttributeError`. -/
def get32bitCounterpart (_r : RegisterOperand) : Except PyErr RegisterOperand :=
  .error (.attributeError
    "'RegisterOperand' object has no attribute 'get_32bit_counterpart'")

/-- `TRACKED_REGISTERS`. -/
def TRACKED_REGISTERS : List RegisterOperand :=
  [.EAX, .EBX, .ECX, .EDX, .ESI, .EDI, .EBP, .ESP]

/-- `set.add` on a set represented as a duplicate-free list. -/
def setAdd (s : List RegisterOperand) (r : RegisterOperand) :
    List RegisterOperand :=
  if r ∈ s then s else s ++ [r]

/-- A fold that can raise, mirroring a Python `for` loop mutating an
accumulator. -/
def foldME {α β : Type} (f : β → α → Except PyErr β) :
    List α → β → Except PyErr β
  | [], b => .ok b
  | x :: xs, b => do
    let b2 ← f b x
    foldME f xs b2

/-- The operand scan of `get_used_registers`: register operands and memory
base/index registers are folded to their 32-bit parents (raising, since the
method does not exist). -/
def opRegs (used : List RegisterOperand) :
    Operand → Except PyErr (List RegisterOperand)
  | .reg r => do
    let p ← get32bitCounterpart r
    .ok (setAdd used p)
  | .mem m => do
    let used2 ← match m.base with
      | some b => do
        let p ← get32bitCounterpart b
        pure (setAdd used p)
      | none => pure used
    match m.index with
    | some i => do
      let p ← get32bitCounterpart i
      .ok (setAdd used2 p)
    | none => .ok used2
  | .imm _ => .ok used

/-- The `implicit_map` of `get_implicit_registers` in insertion order. -/
def implicitMap : List (String × List RegisterOperand) :=
  [("mul", [.EAX, .EDX]), ("div", [.EAX, .EDX]), ("idiv", [.EAX, .EDX]),
   ("cdq", [.EAX, .EDX]), ("cwd", [.EAX, .EDX]), ("cbw", [.EAX]),
   ("cwde", [.EAX])]

/-- `get_implicit_registers`: the first matching `implicit_map` key folds
its registers through the (missing) 32-bit counterpart method; an `imul`
with a single operand adds EAX and EDX directly. -/
def getImplicitRegisters (instr : Instruction) :
    Except PyErr (List RegisterOperand) :=
  let mnem := pyLower instr.mnemonic
  match implicitMap.find? (fun p => p.1.data.isPrefixOf mnem.data) with
  | some p => do
    let regs ← mapME get32bitCounterpart p.2
    .ok (regs.foldl setAdd [])
  | none =>
    if ("imul".data).isPrefixOf mnem.data then
      if instr.operands.length = 1 then .ok [.EAX, .EDX] else .ok []
    else .ok []

/-- `get_used_registers`: scan every operand of every instruction, union the
implicit registers, then keep the tracked ones. -/
def getUsedRegisters (instructions : List Instruction) :
    Except PyErr (List RegisterOperand) := do
  let used ← foldME
    (fun used instr => do
      let used2 ← foldME opRegs instr.operands used
      let implicit ← getImplicitRegisters instr
      .ok (implicit.foldl setAdd used2))
    instructions []
  .ok (used.filter fun r => r ∈ TRACKED_REGISTERS)

/-- Insertion into a list sorted by the registers' `value` strings
(`sorted(used_regs, key=lambda r: r.value)`). -/
def insertByValue (r : RegisterOperand) :
    List RegisterOperand → List RegisterOperand
  | [] => [r]
  | x :: xs =>
    if strLtB r.value x.value then r :: x :: xs else x :: insertByValue r xs

/-- `sorted(..., key=lambda r: r.value)` (all values are distinct, so
stability is irrelevant). -/
def sortedByValue (l : List RegisterOperand) : List RegisterOperand :=
  l.foldr insertByValue []

/-- `create_load`: `movl data_label+offset, %reg`. -/
def createLoad (reg : RegisterOperand) (offset : Int) (dataLabel : String) :
    Instruction :=
  ⟨"movl", [.mem ⟨none, none, 1, (Expression.ofSym dataLabel).addInt offset⟩,
    .reg reg], 0⟩

/-- `create_save`: `movl %reg, data_label+offset`. -/
def createSave (reg : RegisterOperand) (offset : Int) (dataLabel : String) :
    Instruction :=
  ⟨"movl", [.reg reg,
    .mem ⟨none, none, 1, (Expression.ofSym dataLabel).addInt offset⟩], 0⟩

/-- `instrument_block` (the register-offset dict is total on the tracked
registers, modelled as a function). -/
def instrumentBlock (block : BasicBlockP)
    (regOffsets : RegisterOperand → Int) (dataLabel : String) :
    Except PyErr BasicBlockP := do
  let usedRegs ← getUsedRegisters block.instructions
  if usedRegs.isEmpty then .ok block
  else
    .ok { block with instructions :=
      ((sortedByValue usedRegs).map fun r =>
        createLoad r (regOffsets r) dataLabel) ++
      block.instructions ++
      ((sortedByValue usedRegs).map fun r =>
        createSave r (regOffsets r) dataLabel) }

/-- Claim C2: the claim asserts that every register operand folds to its
32-bit parent and that detection succeeds on any block using a register.
In fact `get_32bit_counterpart` is not defined anywhere, so
`get_used_registers` raises `AttributeError` on the very first register
operand it scans. -/
theorem c2_used_register_detection_raises :
    getUsedRegisters [⟨"movl", [.reg .EAX, .reg .EBX], 3⟩] =
      .error (.attributeError
        "'RegisterOperand' object has no attribute 'get_32bit_counterpart'") := rfl

/-- Claim C4 (counterexample): the claim's own example — a block using EBX
and EBP — cannot be instrumented at all: detection raises `AttributeError`
(claim C2's missing method).  Moreover the code sorts by the registers'
`value` strings, under which EBP (\"%ebp\") precedes EBX (\"%ebx\"), not by
enum ordinal as claimed. -/
theorem c4_value_sorted_instrumentation_counterexample :
    instrumentBlock ⟨"B", [⟨"movl", [.reg .EBX, .reg .EBP], 1⟩], none⟩
        (fun _ => 0) "__MEMORY" =
      .error (.attributeError
        "'RegisterOperand' object has no attribute 'get_32bit_counterpart'") ∧
    sortedByValue [.EBX, .EBP] ≠ [.EBX, .EBP] := ⟨rfl, by decide⟩

/-- Claim C4 (amended): whenever used-register detection succeeds with a
nonempty set, `instrument_block` wraps the block with loads and saves
iterating the used registers sorted by their `value` string (e.g. EBP
before EBX), not by enum ordinal. -/
theorem c4_value_sorted_instrumentation_amended (block : BasicBlockP)
    (regOffsets : RegisterOperand → Int) (dataLabel : String)
    (used : List RegisterOperand)
    (h : getUsedRegisters block.instructions = .ok used)
    (hne : used.isEmpty = false) :
    instrumentBlock block regOffsets dataLabel =
      .ok { block with instructions :=
        ((sortedByValue used).map fun r =>
          createLoad r (regOffsets r) dataLabel) ++
        block.instructions ++
        ((sortedByValue used).map fun r =>
          createSave r (regOffsets r) dataLabel) } ∧
    sortedByValue [.EBX, .EBP] = [.EBP, .EBX] := by
  constructor
  · simp only [instrumentBlock]
    rw [h]
    simp only [okBind]
    rw [if_neg (by simp [hne])]
  · rfl

/-- C4 witness: a single-operand `imull` block (the one reachable nonempty
case) is wrapped with EAX/EDX loads and saves. -/
theorem c4_value_sorted_instrumentation_witness :
    instrumentBlock ⟨"B", [⟨"imull", [.imm ⟨3, []⟩], 5⟩], none⟩
        (fun _ => (0 : Int)) "__MEMORY" =
      .ok ⟨"B",
        ((sortedByValue [.EAX, .EDX]).map fun r =>
          createLoad r ((fun _ => (0 : Int)) r) "__MEMORY") ++
        [⟨"imull", [.imm ⟨3, []⟩], 5⟩] ++
        ((sortedByValue [.EAX, .EDX]).map fun r =>
          createSave r ((fun _ => (0 : Int)) r) "__MEMORY"), none⟩ ∧
    sortedByValue [.EBX, .EBP] = [.EBP, .EBX] :=
  c4_value_sorted_instrumentation_amended
    ⟨"B", [⟨"imull", [.imm ⟨3, []⟩], 5⟩], none⟩ (fun _ => 0) "__MEMORY"
    [.EAX, .EDX] rfl rfl

/-! ## Claim C1 — src/src/blockpreprocessor/preprocessor.py and
src/src/dataparser/parser.py -/

/-- Digit value of a character for `int(x, base)` (`0-9`, `a-z`, `A-Z`),
valid only below the base. -/
def digitVal (b : Nat) (c : Char) : Option Nat :=
  let n := c.toNat
  let v := if 48 ≤ n ∧ n ≤ 57 then some (n - 48)
    else if 97 ≤ n ∧ n ≤ 122 then some (n - 87)
    else if 65 ≤ n ∧ n ≤ 90 then some (n - 55)
    else none
  match v with
  | some v => if v < b then some v else none
  | none => none

/-- Accumulating digit-string value in a base. -/
def digitsValBase (b : Nat) (acc : Nat) : List Char → Option Nat
  | [] => some acc
  | c :: rest =>
    match digitVal b c with
    | some v => digitsValBase b (acc * b + v) rest
    | none => none

/-- Python `int(s, 0)` on a stripped string: optional sign, then `0x`/`0o`/
`0b` prefixed digits, all-zero strings, or decimal without a leading zero
(underscore digit separators are not modelled; no statement below evaluates
an underscored literal). -/
def pyIntBase0 (s : List Char) : Except PyErr Int :=
  let err : Except PyErr Int := .error (.valueError
    ("invalid literal for int() with base 0: " ++ (⟨s⟩ : String)))
  let (sign, rest) := match s with
    | '+' :: r => ((1 : Int), r)
    | '-' :: r => ((-1 : Int), r)
    | r => ((1 : Int), r)
  match rest with
  | [] => err
  | ['0'] => .ok 0
  | '0' :: c :: ds =>
    if c = 'x' ∨ c = 'X' then
      match (if ds.isEmpty then none else digitsValBase 16 0 ds) with
      | some n => .ok (sign * n)
      | none => err
    else if c = 'o' ∨ c = 'O' then
      match (if ds.isEmpty then none else digitsValBase 8 0 ds) with
      | some n => .ok (sign * n)
      | none => err
    else if c = 'b' ∨ c = 'B' then
      match (if ds.isEmpty then none else digitsValBase 2 0 ds) with
      | some n => .ok (sign * n)
      | none => err
    else if ('0' :: c :: ds).all (fun d => d = '0') then .ok 0
    else err
  | ds =>
    match digitsValBase 10 0 ds with
    | some n => .ok (sign * n)
    | none => err

/-- `parse_directive` (src/src/dataparser/parser.py).  The `.float` arm
(Python `float` conversion and repr) is outside the modelled fragment and
is omitted — no statement below evaluates a `.float` line; all other arms
are embedded. -/
def parseDirective (mm : MemoryManager) (directive : String)
    (argsStr : List Char) (labelName : String) :
    Except PyErr (MemoryManager × Option Allocation) :=
  if directive = ".int" ∨ directive = ".long" then do
    let pieces := (splitCommasPlain argsStr).filter fun p => ¬ p.isEmpty
    let vals ← mapME pyIntBase0 pieces
    match vals with
    | [] => .ok (mm, none)
    | [v] => (allocateData mm (.int v) labelName).map fun r => (r.1, some r.2)
    | vs => (allocateData mm (.list vs) labelName).map fun r => (r.1, some r.2)
  else if directive = ".asciz" ∨ directive = ".string" ∨
      directive = ".ascii" then
    parseAscizDirective mm labelName argsStr
  else if directive = ".zero" ∨ directive = ".space" ∨
      directive = ".skip" then
    match (splitFirstWs argsStr).1 with
    | [] => .ok (mm, none)
    | tok =>
      match pyIntBase0 tok with
      | .error _ => .ok (mm, none)
      | .ok size =>
        if size ≤ 0 then .ok (mm, none)
        else (allocateEmpty mm size labelName).map fun r => (r.1, some r.2)
  else .ok (mm, none)

/-- `filter_data_section`. -/
def filterDataSection : Bool → List (List Char) → List (List Char)
  | _, [] => []
  | inData, line :: rest =>
    if (".section .data".data).isPrefixOf line ∨ line = ".data".data then
      filterDataSection true rest
    else if (".section".data).isPrefixOf line ∨ line = ".text".data ∨
        line = ".bss".data then
      filterDataSection false rest
    else if inData then line :: filterDataSection inData rest
    else filterDataSection inData rest

/-- The label pattern `^[a-zA-Z_.][a-zA-Z0-9_.]*$` of `parse_data`. -/
def isLabelStartChar (c : Char) : Bool :=
  (65 ≤ c.toNat ∧ c.toNat ≤ 90) ∨ (97 ≤ c.toNat ∧ c.toNat ≤ 122) ∨
    c = '_' ∨ c = '.'

def isLabelChar (c : Char) : Bool :=
  isLabelStartChar c ∨ (48 ≤ c.toNat ∧ c.toNat ≤ 57)

def matchesLabelRe : List Char → Bool
  | [] => false
  | c :: rest => isLabelStartChar c && rest.all isLabelChar

/-- `labels[name] = []` when absent (dict insertion order preserved). -/
def labelsAdd (labels : List (String × List Allocation)) (name : String) :
    List (String × List Allocation) :=
  if labels.any (fun p => p.1 = name) then labels else labels ++ [(name, [])]

/-- `labels[name].append(a)`. -/
def labelsAppend (labels : List (String × List Allocation)) (name : String)
    (a : Allocation) : List (String × List Allocation) :=
  labels.map fun p => if p.1 = name then (p.1, p.2 ++ [a]) else p

/-- One line of the `parse_data` loop (label handling, then directive
dispatch). -/
def parseDataLine
    (st : List (String × List Allocation) × Option String × MemoryManager)
    (line : List Char) :
    Except PyErr
      (List (String × List Allocation) × Option String × MemoryManager) :=
  let (labels, cur, mm) := st
  let (labels, cur, line, skip) :=
    if ':' ∈ line then
      let pre := pyStrip (line.takeWhile fun c => !(c == ':'))
      let rem := (line.dropWhile fun c => !(c == ':')).drop 1
      let (labels, cur, line) :=
        if matchesLabelRe pre then
          (labelsAdd labels ⟨pre⟩, some (⟨pre⟩ : String), pyStrip rem)
        else (labels, cur, line)
      (labels, cur, line, line.isEmpty)
    else (labels, cur, line, false)
  if skip then .ok (labels, cur, mm)
  else
    let curName := cur.getD "__anonymous_data"
    let labels := if cur.isNone then labelsAdd labels curName else labels
    let (tok, rest) := splitFirstWs line
    do
      let (mm, alloc) ← parseDirective mm ⟨tok⟩ (pyStrip rest) curName
      match alloc with
      | some a => .ok (labelsAppend labels curName a, some curName, mm)
      | none => .ok (labels, some curName, mm)

/-- `parse_data`: strip comments, keep the `.data` section, fold the lines.
Returns the label map and the allocator state. -/
def parseData (mm : MemoryManager) (source : String) :
    Except PyErr (List (String × List Allocation) × MemoryManager) := do
  let lines := ((splitLinesChars source.data []).map stripCommentsLine).filter
    fun l => ¬ l.isEmpty
  let lines := filterDataSection false lines
  let st ← foldME parseDataLine lines ([], none, mm)
  .ok (st.1, st.2.2)

/-- The stack-based traversal of `iter_blocks` (fueled; each visited block
is recorded once, successors are pushed).  Only the visited set matters to
symbol resolution, so the pop order of the Python stack is not tracked. -/
def dfsVisit (blocks : List BasicBlockP) : Nat → List Nat → List Nat → List Nat
  | 0, _, visited => visited
  | _ + 1, [], visited => visited
  | f + 1, i :: stack, visited =>
    if i ∈ visited then dfsVisit blocks f stack visited
    else
      let visited := visited ++ [i]
      match (blocks.getD i ⟨"", [], none⟩).successor with
      | none => dfsVisit blocks f stack visited
      | some (.direct j) => dfsVisit blocks f (j :: stack) visited
      | some (.cond t fb _) => dfsVisit blocks f (fb :: t :: stack) visited

/-- The set of block indices `iter_blocks` yields for the given function
entry points. -/
def iterBlocksReach (blocks : List BasicBlockP) (entries : List Nat) :
    List Nat :=
  entries.foldl
    (fun visited e =>
      dfsVisit blocks ((blocks.length + 2) * (blocks.length + 2)) [e] visited)
    []

/-- `resolve_expression`: substitute each data symbol occurring in the
expression by `data_label + offset`. -/
def resolveExpression (e : Expression) (offsets : List (String × Int))
    (dataLabel : String) : Expression :=
  let targets := e.symbols.filter fun s => offsets.any fun p => p.1 = s
  targets.foldl
    (fun acc s =>
      let off := ((offsets.find? fun p => p.1 = s).map fun p => p.2).getD 0
      acc.substituteTerm s ((Expression.ofSym dataLabel).addInt off))
    e

/-- `resolve_operand`. -/
def resolveOperand (op : Operand) (offsets : List (String × Int))
    (dataLabel : String) : Operand :=
  match op with
  | .imm e => .imm (resolveExpression e offsets dataLabel)
  | .mem m =>
    .mem { m with displacement := resolveExpression m.displacement offsets dataLabel }
  | .reg r => .reg r

/-- `resolve_symbols`: rewrite the operands of every instruction of every
block reachable from a function entry. -/
def resolveSymbols (blocks : List BasicBlockP) (entries : List Nat)
    (offsets : List (String × Int)) (dataLabel : String) :
    List BasicBlockP :=
  let reach := iterBlocksReach blocks entries
  blocks.enum.map fun p =>
    if p.1 ∈ reach then
      { p.2 with instructions := p.2.instructions.map fun i =>
          { i with operands := i.operands.map fun op =>
              resolveOperand op offsets dataLabel } }
    else p.2

/-- The call `expand_stack_ops(functions)` in `preprocess_cfg`
(src/src/blockpreprocessor/preprocessor.py:29): `expand_stack_ops` is
declared as `expand_stack_ops(functions, scratch_offset, data_label)`
(src/src/blockpreprocessor/expansion.py:20) with no defaults, so the call
raises `TypeError` before any expansion work happens. -/
def expandStackOpsCall : Except PyErr Unit :=
  .error (.typeError
    ("expand_stack_ops() missing 2 required positional arguments: " ++
      "'scratch_offset' and 'data_label'"))

/-- `preprocess_cfg`: data parsing, symbol resolution, stack-op expansion,
register virtualization.  The stage after `expand_stack_ops(functions)` is
unreachable — that call always raises — so register virtualization
(embedded separately as `instrumentBlock`) does not appear here. -/
def preprocessCfg (asm : String) (mm : MemoryManager) (dataLabel : String) :
    Except PyErr (List FunctionP × List BasicBlockP × MemoryManager) := do
  let (labels, mm) ← parseData mm asm
  let symbolOffsets := labels.filterMap fun p =>
    match p.2 with
    | [] => none
    | a :: _ => some (p.1, a.offset)
  let (functions, blocks) ← parseCfg asm
  let blocks := resolveSymbols blocks (functions.map fun f => f.entry)
    symbolOffsets dataLabel
  let _ ← expandStackOpsCall
  .ok (functions, blocks, mm)

/-- Claim C1: the claim describes the full pipeline completing and returning
functions with register-save prologues.  In fact `preprocess_cfg` calls
`expand_stack_ops(functions)` with one argument where three are required, so
the pipeline raises `TypeError` on every input that reaches the expansion
stage — here shown on a minimal well-formed program. -/
theorem c1_preprocess_pipeline_type_error :
    preprocessCfg ".text\nmain:\n    ret" ⟨"__MEMORY", 4, 0, []⟩ "__MEMORY" =
      .error (.typeError
        ("expand_stack_ops() missing 2 required positional arguments: " ++
          "'scratch_offset' and 'data_label'")) := rfl

/-! ## Claim C6 — src/src/linearizer/linearizer.py -/

/-- A element of the linear output stream: a label or an instruction. -/
inductive LinElem where
  | label (name : String)
  | instr (i : Instruction)
deriving Repr, DecidableEq

/-- `ends_unconditionally`. -/
def endsUnconditionally (b : BasicBlockP) : Bool :=
  match b.instructions.getLast? with
  | none => false
  | some last =>
    let m := pyLower last.mnemonic
    m = "jmp" ∨ m = "ret" ∨ m = "iret" ∨ m = "syscall"

/-- `get_fallthrough_successor` (as an arena index). -/
def getFallthroughSuccessor (b : BasicBlockP) : Option Nat :=
  match b.successor with
  | some (.direct j) => some j
  | some (.cond _ fb _) => some fb
  | none => none

/-- `generate_block_content`: the block label and instructions, then the
re-synthesized conditional jump (canonical mnemonic `condition.value`
toward the true block), then a connector `jmp` when the logical
fall-through does not physically follow and the block does not already end
unconditionally. -/
def generateBlockContent (blocks : List BasicBlockP) (b : BasicBlockP)
    (physicalNextName : Option String) : List LinElem :=
  [.label b.name] ++ b.instructions.map .instr ++
  (match b.successor with
   | some (.cond t _ c) =>
     [.instr ⟨c.value, [.mem ⟨none, none, 1,
       Expression.ofSym (blocks.getD t ⟨"", [], none⟩).name⟩], 0⟩]
   | _ => []) ++
  (match getFallthroughSuccessor b with
   | some fb =>
     if some (blocks.getD fb ⟨"", [], none⟩).name ≠ physicalNextName ∧
         endsUnconditionally b = false then
       [.instr ⟨"jmp", [.mem ⟨none, none, 1,
         Expression.ofSym (blocks.getD fb ⟨"", [], none⟩).name⟩], 0⟩]
     else []
   | none => [])

/-- `discover_blocks`: recursive pre-order DFS — the block, then the true
branch, then the false branch (fueled; the returned visited list is the
yield order). -/
def discoverBlocks (blocks : List BasicBlockP) : Nat → Nat → List Nat → List Nat
  | 0, _, visited => visited
  | f + 1, i, visited =>
    if i ∈ visited then visited
    else
      let visited := visited ++ [i]
      match (blocks.getD i ⟨"", [], none⟩).successor with
      | none => visited
      | some (.direct j) => discoverBlocks blocks f j visited
      | some (.cond t fb _) =>
        discoverBlocks blocks f fb (discoverBlocks blocks f t visited)

/-- `linearize_function`: function label, prologue, then every discovered
block's content with its physical follower's name. -/
def linearizeFunction (blocks : List BasicBlockP) (name : String)
    (entry : Nat) (prologue : List Instruction) : List LinElem :=
  let order := discoverBlocks blocks
    ((blocks.length + 2) * (blocks.length + 2)) entry []
  [.label name] ++ prologue.map .instr ++
  order.enum.flatMap fun p =>
    generateBlockContent blocks (blocks.getD p.2 ⟨"", [], none⟩)
      (match order.get? (p.1 + 1) with
       | some j => some (blocks.getD j ⟨"", [], none⟩).name
       | none => none)

theorem discover_step_none (blocks : List BasicBlockP) (f i : Nat)
    (visited : List Nat) (hi : ¬ i ∈ visited)
    (hsucc : (blocks.getD i ⟨"", [], none⟩).successor = none) :
    discoverBlocks blocks (f + 1) i visited = visited ++ [i] := by
  simp only [discoverBlocks]
  rw [if_neg hi]
  simp only [hsucc]

theorem discover_step_direct (blocks : List BasicBlockP) (f i j : Nat)
    (visited : List Nat) (hi : ¬ i ∈ visited)
    (hsucc : (blocks.getD i ⟨"", [], none⟩).successor = some (.direct j)) :
    discoverBlocks blocks (f + 1) i visited =
      discoverBlocks blocks f j (visited ++ [i]) := by
  simp only [discoverBlocks]
  rw [if_neg hi]
  simp only [hsucc]

theorem discover_step_cond (blocks : List BasicBlockP) (f i t fb : Nat)
    (c : JumpCondition) (visited : List Nat) (hi : ¬ i ∈ visited)
    (hsucc : (blocks.getD i ⟨"", [], none⟩).successor = some (.cond t fb c)) :
    discoverBlocks blocks (f + 1) i visited =
      discoverBlocks blocks f fb (discoverBlocks blocks f t (visited ++ [i])) := by
  simp only [discoverBlocks]
  rw [if_neg hi]
  simp only [hsucc]

theorem discover_prefix (blocks : List BasicBlockP) :
    ∀ (f : Nat) (i : Nat) (visited : List Nat),
      ∃ ext, discoverBlocks blocks f i visited = visited ++ ext := by
  intro f
  induction f with
  | zero =>
    intro i visited
    exact ⟨[], by simp [discoverBlocks]⟩
  | succ f ih =>
    intro i visited
    by_cases hi : i ∈ visited
    · refine ⟨[], ?_⟩
      simp only [discoverBlocks]
      rw [if_pos hi]
      simp
    · rcases hsucc : (blocks.getD i ⟨"", [], none⟩).successor
          with _ | ⟨j⟩ | ⟨t, fb, c⟩
      · exact ⟨[i], discover_step_none blocks f i visited hi hsucc⟩
      · obtain ⟨ext, he⟩ := ih j (visited ++ [i])
        refine ⟨[i] ++ ext, ?_⟩
        rw [discover_step_direct blocks f i j visited hi hsucc, he]
        simp
      · obtain ⟨ext1, he1⟩ := ih t (visited ++ [i])
        obtain ⟨ext2, he2⟩ := ih fb (visited ++ [i] ++ ext1)
        refine ⟨[i] ++ ext1 ++ ext2, ?_⟩
        rw [discover_step_cond blocks f i t fb c visited hi hsucc, he1, he2]
        simp

/-- The arena parsed from the claim's `cmp; jge L; mid; L:` scenario: the
parser replaced `jge L` by `ConditionalSuccessor(true=mid, false=L, JL)`. -/
def c6Blocks : List BasicBlockP :=
  [⟨"A", [⟨"cmpl", [.imm ⟨0, []⟩, .reg .EAX], 3⟩], some (.cond 1 2 .JL)⟩,
   ⟨"mid", [⟨"movl", [.imm ⟨1, []⟩, .reg .EBX], 6⟩], some (.direct 2)⟩,
   ⟨"L", [⟨"ret", [], 8⟩], none⟩]

/-- Claim C6 (counterexample): on the claim's own scenario the emitter does
not reproduce `jge L`: it re-synthesizes the canonical swapped condition as
`jl mid` and, because the logical fall-through `L` is not the physically
next block, additionally emits `jmp L`. -/
theorem c6_canonical_jump_resynthesis_counterexample :
    parseLinkedBlocks
        ".text\nA:\n    cmpl $0, %eax\n    jge L\nmid:\n    movl $1, %ebx\nL:\n    ret\n" =
      .ok c6Blocks ∧
    linearizeFunction c6Blocks "A" 0 [] =
      [.label "A", .label "A",
       .instr ⟨"cmpl", [.imm ⟨0, []⟩, .reg .EAX], 3⟩,
       .instr ⟨"jl", [.mem ⟨none, none, 1, Expression.ofSym "mid"⟩], 0⟩,
       .instr ⟨"jmp", [.mem ⟨none, none, 1, Expression.ofSym "L"⟩], 0⟩,
       .label "mid",
       .instr ⟨"movl", [.imm ⟨1, []⟩, .reg .EBX], 6⟩,
       .label "L",
       .instr ⟨"ret", [], 8⟩] := ⟨rfl, rfl⟩

/-- Claim C6 (amended): for every block with a conditional successor the
emitter outputs the canonical condition mnemonic (`condition.value`)
targeting the *true* block — not the source's original mnemonic — followed
by a connector `jmp` to the false block exactly when that block is not the
physical follower and the block does not end unconditionally; and the
discovery order places the true block immediately after the current block
(so for a swapped jump such as `jge`, the physical follower is the true
block and the original fall-through `L` needs the connector `jmp`). -/
theorem c6_canonical_jump_resynthesis_amended
    (blocks : List BasicBlockP) (b : BasicBlockP) (t fb : Nat)
    (c : JumpCondition) (physicalNextName : Option String)
    (hsucc : b.successor = some (.cond t fb c))
    (f i : Nat) (visited : List Nat)
    (hib : (blocks.getD i ⟨"", [], none⟩).successor = some (.cond t fb c))
    (hi : ¬ i ∈ visited) (ht : ¬ t ∈ visited) (hti : t ≠ i) :
    (generateBlockContent blocks b physicalNextName =
      [.label b.name] ++ b.instructions.map .instr ++
      [.instr ⟨c.value, [.mem ⟨none, none, 1,
        Expression.ofSym (blocks.getD t ⟨"", [], none⟩).name⟩], 0⟩] ++
      (if some (blocks.getD fb ⟨"", [], none⟩).name ≠ physicalNextName ∧
          endsUnconditionally b = false then
        [.instr ⟨"jmp", [.mem ⟨none, none, 1,
          Expression.ofSym (blocks.getD fb ⟨"", [], none⟩).name⟩], 0⟩]
      else [])) ∧
    (∃ ext, discoverBlocks blocks (f + 2) i visited =
      visited ++ [i, t] ++ ext) := by
  constructor
  · simp only [generateBlockContent, getFallthroughSuccessor, hsucc]
  · have ht2 : ¬ t ∈ visited ++ [i] := by
      simp only [List.mem_append, List.mem_singleton]
      rintro (h1 | h1)
      · exact ht h1
      · exact hti h1
    rw [discover_step_cond blocks (f + 1) i t fb c visited hi hib]
    rcases hts : (blocks.getD t ⟨"", [], none⟩).successor
        with _ | ⟨j⟩ | ⟨t2, fb2, c2⟩
    · obtain ⟨ext2, he2⟩ := discover_prefix blocks (f + 1) fb
        (visited ++ [i] ++ [t])
      refine ⟨ext2, ?_⟩
      rw [discover_step_none blocks f t (visited ++ [i]) ht2 hts, he2]
      simp
    · obtain ⟨ext1, he1⟩ := discover_prefix blocks f j (visited ++ [i] ++ [t])
      obtain ⟨ext2, he2⟩ := discover_prefix blocks (f + 1) fb
        (visited ++ [i] ++ [t] ++ ext1)
      refine ⟨ext1 ++ ext2, ?_⟩
      rw [discover_step_direct blocks f t j (visited ++ [i]) ht2 hts, he1, he2]
      simp
    · obtain ⟨ext1, he1⟩ := discover_prefix blocks f t2 (visited ++ [i] ++ [t])
      obtain ⟨ext2, he2⟩ := discover_prefix blocks f fb2
        (visited ++ [i] ++ [t] ++ ext1)
      obtain ⟨ext3, he3⟩ := discover_prefix blocks (f + 1) fb
        (visited ++ [i] ++ [t] ++ ext1 ++ ext2)
      refine ⟨ext1 ++ ext2 ++ ext3, ?_⟩
      rw [discover_step_cond blocks f t t2 fb2 c2 (visited ++ [i]) ht2 hts,
        he1, he2, he3]
      simp

/-- C6 witness: the amended characterization instantiated on the parsed
`jge` scenario — block A emits `jl mid` plus `jmp L`, and the discovery
order places `mid` (the true block) right after A. -/
theorem c6_canonical_jump_resynthesis_witness :
    (generateBlockContent c6Blocks
        ⟨"A", [⟨"cmpl", [.imm ⟨0, []⟩, .reg .EAX], 3⟩], some (.cond 1 2 .JL)⟩
        (some "mid") =
      [.label "A"] ++
      [⟨"cmpl", [.imm ⟨0, []⟩, .reg .EAX], 3⟩].map .instr ++
      [.instr ⟨JumpCondition.JL.value, [.mem ⟨none, none, 1,
        Expression.ofSym (c6Blocks.getD 1 ⟨"", [], none⟩).name⟩], 0⟩] ++
      (if some (c6Blocks.getD 2 ⟨"", [], none⟩).name ≠ some "mid" ∧
          endsUnconditionally ⟨"A",
            [⟨"cmpl", [.imm ⟨0, []⟩, .reg .EAX], 3⟩],
            some (.cond 1 2 .JL)⟩ = false then
        [.instr ⟨"jmp", [.mem ⟨none, none, 1,
          Expression.ofSym (c6Blocks.getD 2 ⟨"", [], none⟩).name⟩], 0⟩]
      else [])) ∧
    (∃ ext, discoverBlocks c6Blocks 2 0 [] = [] ++ [0, 1] ++ ext) :=
  c6_canonical_jump_resynthesis_amended c6Blocks
    ⟨"A", [⟨"cmpl", [.imm ⟨0, []⟩, .reg .EAX], 3⟩], some (.cond 1 2 .JL)⟩
    1 2 .JL (some "mid") rfl 0 0 [] rfl (by decide) (by decide) (by decide)

end Movf
